import Mathlib

/-!
Verification of the `react-url-params-state` repository: a shallow embedding of
`src/useQueryParams.ts` (the typed codec layer, the snapshot reader `getParams`,
the patch algorithm `syncParams`, and the history-interception bridge
`patchHistory` / `unpatchHistory` / `applyUrl`), together with theorems settling
the specification claims.

Modelling conventions:
* JavaScript numbers are modelled at integer precision together with the three
  non-finite points (`NaN`, `Infinity`, `-Infinity`); this is the fragment the
  code's finiteness checks distinguish.
* A query string is modelled as its ordered list of decoded `(key, value)`
  entries (the `URLSearchParams` entry list).  `URLSearchParams.toString` is
  injective on entry lists, so string equality in the source corresponds to
  list equality here.
* `localeCompare` key ordering is modelled by code-point order on strings; the
  claims only use that the order is a fixed total order with a stable sort.
* ISO-8601 timestamp rendering (`Date.prototype.toISOString`) is modelled as
  the signed decimal epoch-millisecond count followed by the UTC marker; the
  properties the code relies on (injectivity, parse inverts format, garbage
  strings are rejected) are preserved.
* Exceptions are modelled with `Except`; a `try`/`catch` in the source becomes
  a `match` on the `Except` value at the same place.
-/

/-- JavaScript number fragment: finite values at integer precision plus the
non-finite points the code distinguishes via `Number.isFinite`. -/
inductive JSNum where
  | finite (i : Int)
  | nan
  | inf
  | ninf
deriving DecidableEq, Repr

/-- `Number.isFinite`. -/
def JSNum.isFinite : JSNum → Bool
  | .finite _ => true
  | _ => false

/-- The character for a decimal digit value. -/
def digitChar (n : Nat) : Char := Char.ofNat (48 + n)

/-- Is this character a decimal digit. -/
def isDigitChar (c : Char) : Bool := 48 ≤ c.toNat && c.toNat ≤ 57

/-- Big-endian decimal digit list of a natural number, by fuel (structural,
so that it evaluates by kernel reduction); the fuel passed by
`natToDigitList` always suffices. -/
def natToDigitsAux : Nat → Nat → List Char
  | 0, _ => []
  | fuel + 1, n =>
      if n < 10 then [digitChar n]
      else natToDigitsAux fuel (n / 10) ++ [digitChar (n % 10)]

/-- Big-endian decimal digit list of a natural number. -/
def natToDigitList (n : Nat) : List Char := natToDigitsAux (n + 1) n

/-- Numeric value of a big-endian digit list. -/
def digitsVal (l : List Char) : Nat :=
  l.foldl (fun a c => 10 * a + (c.toNat - 48)) 0

/-- `String(n)` for the modelled JavaScript numbers. -/
def jsNumToString : JSNum → String
  | .finite i =>
      if i < 0 then String.mk ('-' :: natToDigitList i.natAbs)
      else String.mk (natToDigitList i.natAbs)
  | .nan => "NaN"
  | .inf => "Infinity"
  | .ninf => "-Infinity"

/-- `Number(s)` for the modelled fragment: the empty string is `0`, the three
non-finite literals parse to themselves, signed decimal digit strings parse to
finite values, anything else is `NaN`. -/
def jsStrToNum (s : String) : JSNum :=
  if s = "" then .finite 0
  else if s = "NaN" then .nan
  else if s = "Infinity" then .inf
  else if s = "-Infinity" then .ninf
  else
    match s.data with
    | [] => .finite 0
    | c :: rest =>
        if c = '-' then
          if rest ≠ [] ∧ rest.all isDigitChar then .finite (-(digitsVal rest : Int)) else .nan
        else if (c :: rest).all isDigitChar then .finite (digitsVal (c :: rest)) else .nan

/-- Signed decimal integer reading used by the modelled date parse. -/
def intFromChars (l : List Char) : Option Int :=
  match l with
  | [] => none
  | c :: rest =>
      if c = '-' then
        if rest ≠ [] ∧ rest.all isDigitChar then some (-(digitsVal rest : Int)) else none
      else if (c :: rest).all isDigitChar then some (digitsVal (c :: rest) : Int) else none

/-- `Date.prototype.toISOString`, abstracted to signed decimal epoch
milliseconds followed by the UTC marker (an injective timestamp rendering). -/
def jsDateToISOString (t : Int) : String :=
  jsNumToString (.finite t) ++ "Z"

/-- `new Date(s)` validity and value: accepts exactly the modelled ISO form. -/
def jsDateParse (s : String) : Option Int :=
  match s.data.reverse with
  | [] => none
  | c :: restRev => if c = 'Z' then intFromChars restRev.reverse else none

/-- Generic JSON structure produced by `JSON.parse`. -/
inductive JsonVal where
  | null
  | jbool (b : Bool)
  | jnum (i : Int)
  | jstr (s : String)
  | jarr (l : List JsonVal)
  | jobj (l : List (String × JsonVal))

/-- The runtime values the hook handles: the four scalar kinds, string arrays,
structured (JSON-like) objects, `null`, and a BigInt value (the one value kind
`JSON.stringify` throws on). -/
inductive JSValue where
  | str (s : String)
  | num (n : JSNum)
  | bool (b : Bool)
  | date (t : Int)
  | arr (xs : List String)
  | obj (j : JsonVal)
  | jsnull
  | bigintV (i : Int)

/-- JavaScript truthiness on the modelled values (arrays and objects are
always truthy, even when empty). -/
def jsTruthy : JSValue → Bool
  | .str s => s ≠ ""
  | .num n => n ≠ .finite 0 && n ≠ .nan
  | .bool b => b
  | .jsnull => false
  | _ => true

/-- Is this value JavaScript `null` (the `out[key] != null` test, given that
`undefined` is the `Option` layer). -/
def JSValue.isNull : JSValue → Bool
  | .jsnull => true
  | _ => false

/-- Entry list of a `URLSearchParams` value (decoded key/value pairs in
order). -/
abbrev SP := List (String × String)

/-- `URLSearchParams.get`: the first value under the key, if any. -/
def SP.get (sp : SP) (k : String) : Option String :=
  (sp.find? (fun e => e.1 == k)).map (fun e => e.2)

/-- `URLSearchParams.getAll`: all values under the key, in order. -/
def SP.getAll (sp : SP) (k : String) : List String :=
  (sp.filter (fun e => e.1 == k)).map (fun e => e.2)

/-- `URLSearchParams.delete`: drop every entry under the key. -/
def SP.deleteKey (sp : SP) (k : String) : SP :=
  sp.filter (fun e => e.1 != k)

/-- `URLSearchParams.append`: add an entry at the end. -/
def SP.append (sp : SP) (k v : String) : SP := sp ++ [(k, v)]

/-- `URLSearchParams.set`: replace the first entry under the key in place and
drop the later ones, or append when the key is absent. -/
def SP.set (sp : SP) (k v : String) : SP :=
  match sp with
  | [] => [(k, v)]
  | e :: rest => if e.1 = k then (k, v) :: SP.deleteKey rest k else e :: SP.set rest k v

/-- Entries under one key, kept with their keys. -/
def SP.filterKey (sp : SP) (k : String) : SP :=
  sp.filter (fun e => e.1 == k)

/-- Stable insertion of an entry in front of all entries with a key not below
its own. -/
def insEntry (x : String × String) : SP → SP
  | [] => [x]
  | y :: l => if y.1 < x.1 then y :: insEntry x l else x :: y :: l

/-- Stable sort of the entry list by key, modelling `toSortedQueryString`
(`localeCompare` abstracted to a fixed total order on keys). -/
def sortSP : SP → SP
  | [] => []
  | x :: l => insEntry x (sortSP l)

/-- Is this character a hexadecimal digit. -/
def isHexDigit (c : Char) : Bool :=
  isDigitChar c || (65 ≤ c.toNat && c.toNat ≤ 70) || (97 ≤ c.toNat && c.toNat ≤ 102)

/-- Value of a hexadecimal digit character. -/
def hexVal (c : Char) : Nat :=
  if isDigitChar c then c.toNat - 48
  else if 65 ≤ c.toNat && c.toNat ≤ 70 then c.toNat - 55
  else c.toNat - 87

/-- Uppercase hexadecimal digit character for a value below 16. -/
def hexDigitChar (n : Nat) : Char :=
  if n < 10 then Char.ofNat (48 + n) else Char.ofNat (55 + n)

/-- Percent-decoding (`decodeURIComponent`), restricted to single-byte code
points; `none` models the `URIError` thrown on a malformed escape. -/
def pctDecode : List Char → Option (List Char)
  | [] => some []
  | c :: rest =>
      if c = '%' then
        match rest with
        | a :: b :: rest2 =>
            if isHexDigit a ∧ isHexDigit b then
              (pctDecode rest2).map (fun l => Char.ofNat (16 * hexVal a + hexVal b) :: l)
            else none
        | _ => none
      else (pctDecode rest).map (fun l => c :: l)

/-- `decodeURIComponent` on strings. -/
def decodeURIComponentM (s : String) : Option String :=
  (pctDecode s.data).map String.mk

/-- Percent-encoding of one character (`encodeURIComponent`), ASCII fragment. -/
def pctEncodeChar (c : Char) : List Char :=
  if c.isAlphanum || c = '-' || c = '_' || c = '.' || c = '~' then [c]
  else ['%', hexDigitChar (c.toNat / 16 % 16), hexDigitChar (c.toNat % 16)]

/-- `encodeURIComponent` on strings. -/
def encodeURIComponentS (s : String) : String :=
  String.mk (s.data.flatMap pctEncodeChar)

mutual

/-- `JSON.stringify` rendering of a JSON structure (string escaping elided). -/
def jsonStr : JsonVal → String
  | .null => "null"
  | .jbool b => if b then "true" else "false"
  | .jnum i => jsNumToString (.finite i)
  | .jstr s => "\"" ++ s ++ "\""
  | .jarr l => "[" ++ jsonStrList l ++ "]"
  | .jobj l => "\x7b" ++ jsonStrPairs l ++ "\x7d"

/-- Comma-joined rendering of JSON array elements. -/
def jsonStrList : List JsonVal → String
  | [] => ""
  | [x] => jsonStr x
  | x :: y :: xs => jsonStr x ++ "," ++ jsonStrList (y :: xs)

/-- Comma-joined rendering of JSON object members. -/
def jsonStrPairs : List (String × JsonVal) → String
  | [] => ""
  | [e] => "\"" ++ e.1 ++ "\":" ++ jsonStr e.2
  | e :: f :: xs => "\"" ++ e.1 ++ "\":" ++ jsonStr e.2 ++ "," ++ jsonStrPairs (f :: xs)

end

/-- Leading decimal digit run of a character list. -/
def takeDigits : List Char → List Char × List Char
  | [] => ([], [])
  | c :: rest =>
      if isDigitChar c then
        let (ds, r) := takeDigits rest
        (c :: ds, r)
      else ([], c :: rest)

mutual

/-- Fueled recursive-descent model of `JSON.parse` on one value; returns the
value and the unconsumed suffix, or `none` on a syntax error (fuel exhaustion
also yields `none`; the fuel passed by `jsonParse` covers every input). -/
def pJson : Nat → List Char → Option (JsonVal × List Char)
  | 0, _ => none
  | Nat.succ fuel, l =>
      match l with
      | [] => none
      | c :: rest =>
          if c = 'n' then
            match rest with
            | 'u' :: 'l' :: 'l' :: r => some (.null, r)
            | _ => none
          else if c = 't' then
            match rest with
            | 'r' :: 'u' :: 'e' :: r => some (.jbool true, r)
            | _ => none
          else if c = 'f' then
            match rest with
            | 'a' :: 'l' :: 's' :: 'e' :: r => some (.jbool false, r)
            | _ => none
          else if c = '"' then
            let (s, r) := (rest.takeWhile (fun d => d ≠ '"'), rest.dropWhile (fun d => d ≠ '"'))
            match r with
            | '"' :: r2 => some (.jstr (String.mk s), r2)
            | _ => none
          else if c = '[' then
            match rest with
            | ']' :: r => some (.jarr [], r)
            | _ =>
                match pJsonItems fuel rest with
                | some (items, r) =>
                    match r with
                    | ']' :: r2 => some (.jarr items, r2)
                    | _ => none
                | none => none
          else if c.toNat = 123 then
            match rest with
            | r0 =>
                match r0 with
                | d :: r1 =>
                    if d.toNat = 125 then some (.jobj [], r1)
                    else
                      match pJsonMembers fuel (d :: r1) with
                      | some (mems, r2) =>
                          match r2 with
                          | e :: r3 => if e.toNat = 125 then some (.jobj mems, r3) else none
                          | _ => none
                      | none => none
                | [] => none
          else if c = '-' ∨ isDigitChar c then
            let (ds, r) := takeDigits rest
            if c = '-' then
              if ds ≠ [] then some (.jnum (-(digitsVal ds : Int)), r) else none
            else some (.jnum (digitsVal (c :: ds) : Int), r)
          else none

/-- Fueled parse of one-or-more comma-separated JSON array items. -/
def pJsonItems : Nat → List Char → Option (List JsonVal × List Char)
  | 0, _ => none
  | Nat.succ fuel, l =>
      match pJson fuel l with
      | some (v, r) =>
          match r with
          | ',' :: r2 =>
              match pJsonItems fuel r2 with
              | some (vs, r3) => some (v :: vs, r3)
              | none => none
          | _ => some ([v], r)
      | none => none

/-- Fueled parse of one-or-more comma-separated JSON object members. -/
def pJsonMembers : Nat → List Char → Option (List (String × JsonVal) × List Char)
  | 0, _ => none
  | Nat.succ fuel, l =>
      match l with
      | '"' :: rest =>
          let (s, r) := (rest.takeWhile (fun d => d ≠ '"'), rest.dropWhile (fun d => d ≠ '"'))
          match r with
          | '"' :: ':' :: r2 =>
              match pJson fuel r2 with
              | some (v, r3) =>
                  match r3 with
                  | ',' :: r4 =>
                      match pJsonMembers fuel r4 with
                      | some (ms, r5) => some ((String.mk s, v) :: ms, r5)
                      | none => none
                  | _ => some ([(String.mk s, v)], r3)
              | none => none
          | _ => none
      | _ => none

end

/-- `JSON.parse` model: parse one value and require the whole input consumed. -/
def jsonParse (s : String) : Option JsonVal :=
  match pJson (s.data.length + 1) s.data with
  | some (v, []) => some v
  | _ => none

/-- One invocation of the `onError` callback: the offending key and the error
message it received. -/
structure ErrEvent where
  key : String
  msg : String
deriving DecidableEq, Repr

/-- One invocation of a configured validator: the key and the value it was
evaluated against. -/
structure ValEvent where
  key : String
  value : JSValue

/-- The scalar type tags (`SingleType` in `src/types`). -/
inductive SingleType where
  | string
  | number
  | boolean
  | date
deriving DecidableEq, Repr

/-- The declared type tags (`QueryParamType`): scalars plus `string[]` and
`object`. -/
inductive QueryParamType where
  | single (t : SingleType)
  | stringArray
  | object
deriving DecidableEq, Repr

/-- The type declaration map, in object-key order. -/
abbrev Config := List (String × QueryParamType)

/-- History navigation modes. -/
inductive HistoryMode where
  | push
  | replace
deriving DecidableEq, Repr

/-- The current address: path, query entry list, fragment. -/
structure Url where
  pathname : String
  search : SP
  hash : String
deriving DecidableEq, Repr

/-- A per-key custom codec (`customSerializers[key]`); either side may throw,
modelled by `Except`. -/
structure CustomCodec where
  serialize : Option JSValue → Except String String
  parse : String → Except String (Option JSValue)

/-- The resolved options bundle of `useQueryParams`; `hasOnError` records
whether an `onError` callback was supplied, and a configured validator may
itself throw (`Except.error`). -/
structure Options where
  sortKeys : Bool := false
  defaultHistory : HistoryMode := .replace
  defaultValues : List (String × JSValue) := []
  validation : List (String × (JSValue → Except String Bool)) := []
  customSerializers : List (String × CustomCodec) := []
  hasOnError : Bool := false

/-- `v.parseSingle`: decode a raw scalar, using the custom parser when present;
any exception is caught and reported via `onError` when it (and the key) were
supplied, yielding `undefined`. -/
def parseSingle (value : Option String) (t : SingleType)
    (customParse : Option (String → Except String (Option JSValue)))
    (emit : Bool) (key : String) : Option JSValue × List ErrEvent :=
  match value with
  | none => (none, [])
  | some v =>
      let attempt : Except String (Option JSValue) :=
        match customParse with
        | some p => p v
        | none =>
            match t with
            | .string => .ok (some (.str v))
            | .number =>
                let n := jsStrToNum v
                if n.isFinite then .ok (some (.num n)) else .error ("Invalid number: " ++ v)
            | .boolean =>
                if v = "true" ∨ v = "1" then .ok (some (.bool true))
                else if v = "false" ∨ v = "0" then .ok (some (.bool false))
                else .error ("Invalid boolean: " ++ v)
            | .date =>
                match jsDateParse v with
                | some ts => .ok (some (.date ts))
                | none => .error ("Invalid date: " ++ v)
      match attempt with
      | .ok r => (r, [])
      | .error e => (none, if emit then [⟨key, e⟩] else [])

/-- `v.serializeSingle`: encode a scalar, using the custom serializer when
present; a built-in type mismatch yields `undefined` without throwing, while a
custom-serializer exception is caught and reported via `onError`. -/
def serializeSingle (value : Option JSValue) (t : Option SingleType)
    (customSerialize : Option (Option JSValue → Except String String))
    (emit : Bool) (key : String) : Option String × List ErrEvent :=
  let attempt : Except String (Option String) :=
    match customSerialize with
    | some f => (f value).map some
    | none =>
        .ok (
          match t with
          | some .string => match value with | some (.str s) => some s | _ => none
          | some .number =>
              match value with
              | some (.num n) => if n.isFinite then some (jsNumToString n) else none
              | _ => none
          | some .boolean =>
              match value with
              | some (.bool b) => some (if b then "true" else "false")
              | _ => none
          | some .date => match value with | some (.date ts) => some (jsDateToISOString ts) | _ => none
          | none => none)
  match attempt with
  | .ok r => (r, [])
  | .error e => (none, if emit then [⟨key, e⟩] else [])

/-- `v.parseObject`: URL-decode then `JSON.parse`; every failure is swallowed
into `undefined` with no report. -/
def parseObject (value : Option String) : Option JsonVal :=
  match value with
  | none => none
  | some v =>
      match decodeURIComponentM v with
      | none => none
      | some s => jsonParse s

/-- `JSON.stringify` on the modelled runtime values; `none` models the
exception thrown on a BigInt value. -/
def jsStringify : JSValue → Option String
  | .bigintV _ => none
  | .obj j => some (jsonStr j)
  | .str s => some ("\"" ++ s ++ "\"")
  | .num n => some (if n.isFinite then jsNumToString n else "null")
  | .bool b => some (if b then "true" else "false")
  | .date ts => some ("\"" ++ jsDateToISOString ts ++ "\"")
  | .arr xs => some (jsonStr (.jarr (xs.map (fun s => .jstr s))))
  | .jsnull => some "null"

/-- `v.serializeObject`: `JSON.stringify` then URL-encode; the exception on a
BigInt is swallowed into `undefined`, and `JSON.stringify(undefined)` coerces
through `encodeURIComponent` to the literal string `undefined`. -/
def serializeObject (value : Option JSValue) : Option String :=
  match value with
  | none => some "undefined"
  | some v =>
      match jsStringify v with
      | some s => some (encodeURIComponentS s)
      | none => none

/-- Injection of a parsed JSON structure into the runtime values: structures
stay opaque objects, leaves become the corresponding primitives. -/
def jsvalOfJson : JsonVal → JSValue
  | .jnum i => .num (.finite i)
  | .jstr s => .str s
  | .jbool b => .bool b
  | .null => .jsnull
  | .jarr l => .obj (.jarr l)
  | .jobj l => .obj (.jobj l)

/-- JavaScript `a ?? b` on optional values (`null` and `undefined` both fall
through to the default). -/
def nullishOr (a : Option JSValue) (b : Option JSValue) : Option JSValue :=
  match a with
  | some .jsnull => b
  | some v => some v
  | none => b

/-- The pre-validation part of the `getParams` loop body for one declared key:
decode (or read all occurrences), then substitute the configured default. -/
def rawRead (opts : Options) (sp : SP) (k : String) (tag : QueryParamType) :
    Option JSValue × List ErrEvent :=
  match tag with
  | .stringArray =>
      let values := SP.getAll sp k
      (some (if values ≠ [] then .arr values
             else
               match List.lookup k opts.defaultValues with
               | some dv => if jsTruthy dv then dv else .arr []
               | none => .arr []), [])
  | .object =>
      (nullishOr ((parseObject (SP.get sp k)).map jsvalOfJson) (List.lookup k opts.defaultValues), [])
  | .single t =>
      let cp := (List.lookup k opts.customSerializers).map (fun c => c.parse)
      let (parsed, evs) := parseSingle (SP.get sp k) t cp opts.hasOnError k
      (nullishOr parsed (List.lookup k opts.defaultValues), evs)

/-- The validation tail of the `getParams` loop body, for a key with a
configured validator `f`: run `f` once on a present non-null value; a `false`
verdict reports and substitutes the default, an exception propagates (it is
not caught anywhere in `getParams`).  The third component records every
validator invocation. -/
def validateStep (opts : Options) (k : String) (f : JSValue → Except String Bool) :
    Option JSValue → List ErrEvent →
      Except String (Option JSValue × List ErrEvent × List ValEvent)
  | none, evs => .ok (none, evs, [])
  | some val, evs =>
      if val.isNull then .ok (some val, evs, [])
      else
        match f val with
        | .error e => .error e
        | .ok true => .ok (some val, evs, [⟨k, val⟩])
        | .ok false =>
            .ok (List.lookup k opts.defaultValues,
                 evs ++ (if opts.hasOnError then [⟨k, "Validation failed for " ++ k⟩] else []),
                 [⟨k, val⟩])

/-- The full `getParams` loop body for one declared key: decode-or-default
(`rawRead`), then the validation tail when a validator is configured. -/
def readKeyE (opts : Options) (sp : SP) (k : String) (tag : QueryParamType) :
    Except String (Option JSValue × List ErrEvent × List ValEvent) :=
  let p := rawRead opts sp k tag
  match List.lookup k opts.validation with
  | none => .ok (p.1, p.2, [])
  | some f => validateStep opts k f p.1 p.2

/-- `getParams`: the full snapshot read over the declaration map, in key
order; the result is the value mapping, the `onError` report list, and the
validator invocation trace.  The only uncaught exception source is a throwing
validator. -/
def getParamsE (cfg : Config) (opts : Options) (sp : SP) :
    Except String (List (String × Option JSValue) × List ErrEvent × List ValEvent) :=
  match cfg with
  | [] => .ok ([], [], [])
  | (k, tag) :: rest =>
      match readKeyE opts sp k tag with
      | .error e => .error e
      | .ok (v, evs, vt) =>
          match getParamsE rest opts sp with
          | .error e => .error e
          | .ok (out, evs2, vt2) => .ok ((k, v) :: out, evs ++ evs2, vt ++ vt2)

/-- The query-string mutation one patch entry performs: `set`, `delete`, or
the string-list delete-then-append. -/
inductive POp where
  | set (v : String)
  | del
  | setList (vs : List String)
deriving DecidableEq, Repr

/-- The `syncParams` loop body for one patch entry, abstracted to the mutation
it performs plus its `onError` reports: `string[]` deletes then re-appends a
non-empty string array (anything else just deletes); `object` sets the
serialization or deletes on failure; scalars (and undeclared keys, whose tag
lookup yields `undefined` and falls into the scalar branch) set the
serialization or delete on failure. -/
def entryOp (cfg : Config) (opts : Options) (k : String) (val : Option JSValue) :
    POp × List ErrEvent :=
  match List.lookup k cfg with
  | some .stringArray =>
      (match val with
       | some (.arr xs) => if xs ≠ [] then .setList xs else .del
       | _ => .del, [])
  | some .object =>
      (match serializeObject val with
       | some s => .set s
       | none => .del, [])
  | some (.single t) =>
      let cs := (List.lookup k opts.customSerializers).map (fun c => c.serialize)
      let (ser, evs) := serializeSingle val (some t) cs opts.hasOnError k
      (match ser with | some s => .set s | none => .del, evs)
  | none =>
      let cs := (List.lookup k opts.customSerializers).map (fun c => c.serialize)
      let (ser, evs) := serializeSingle val none cs opts.hasOnError k
      (match ser with | some s => .set s | none => .del, evs)

/-- Apply one patch-entry mutation to the entry list. -/
def SP.applyOp (sp : SP) (k : String) : POp → SP
  | .set v => SP.set sp k v
  | .del => SP.deleteKey sp k
  | .setList vs => vs.foldl (fun s v => SP.append s k v) (SP.deleteKey sp k)

/-- The `syncParams` working-copy loop: fold the patch entries, in patch
order, over the entry list, accumulating `onError` reports. -/
def applyPatchSP (cfg : Config) (opts : Options) (sp : SP)
    (patch : List (String × Option JSValue)) : SP × List ErrEvent :=
  patch.foldl
    (fun acc e =>
      let (op, evs) := entryOp cfg opts e.1 e.2
      (SP.applyOp acc.1 e.1 op, acc.2 ++ evs))
    (sp, [])

/-- Canonicalization before comparison and commit: sort by key when `sortKeys`
is set, else identity. -/
def canonSP (sortKeys : Bool) (sp : SP) : SP :=
  if sortKeys then sortSP sp else sp

/-- Outcome of one `syncParams` call: the (possibly new) address, the commit
performed (if any) with its mode, and the `onError` reports. -/
structure SyncResult where
  url : Url
  committed : Option (Url × HistoryMode)
  events : List ErrEvent
deriving Repr

/-- `syncParams`: snapshot and canonicalize the current query string, apply
the patch to a working copy, canonicalize identically, and commit (path +
canonicalized query + fragment) only when the two differ, using the explicit
mode or the configured default. -/
def syncParams (cfg : Config) (opts : Options) (url : Url)
    (patch : List (String × Option JSValue)) (mode : Option HistoryMode) : SyncResult :=
  let sp := url.search
  let before := canonSP opts.sortKeys sp
  let (sp2, evs) := applyPatchSP cfg opts sp patch
  let after := canonSP opts.sortKeys sp2
  if after = before then ⟨url, none, evs⟩
  else
    let newUrl : Url := ⟨url.pathname, after, url.hash⟩
    ⟨newUrl, some (newUrl, mode.getD opts.defaultHistory), evs⟩

/-- A history-mutation entry point slot: the saved platform original, or the
notifying wrapper installed by `patchHistory`. -/
inductive HistFn where
  | original
  | patched
deriving DecidableEq, Repr

/-- The process-wide interception state: the two entry-point slots, the saved
originals, the `isHistoryPatched` flag and the `patchCount` counter. -/
structure HistoryState where
  pushSlot : HistFn
  replaceSlot : HistFn
  savedPush : Option HistFn
  savedReplace : Option HistFn
  isHistoryPatched : Bool
  patchCount : Int
deriving DecidableEq, Repr

/-- The pristine state before any engine instance mounts. -/
def initialHistoryState : HistoryState :=
  ⟨.original, .original, none, none, false, 0⟩

/-- `patchHistory`: a no-op when already patched (note the counter is only
reached otherwise); else save the originals, increment the counter, install
the wrappers and set the flag. -/
def patchHistory (s : HistoryState) : HistoryState :=
  if s.isHistoryPatched then s
  else
    { pushSlot := .patched
      replaceSlot := .patched
      savedPush := some s.pushSlot
      savedReplace := some s.replaceSlot
      isHistoryPatched := true
      patchCount := s.patchCount + 1 }

/-- `unpatchHistory`: a no-op when not patched; else decrement the counter and,
when it has reached zero and both originals are saved, restore them and reset
all interception state. -/
def unpatchHistory (s : HistoryState) : HistoryState :=
  if !s.isHistoryPatched then s
  else
    let c := s.patchCount - 1
    match s.savedPush, s.savedReplace with
    | some p, some r =>
        if c ≤ 0 then ⟨p, r, none, none, false, 0⟩
        else { s with patchCount := c }
    | _, _ => { s with patchCount := c }

/-- The entry-point slot an engine commit goes through for a given mode. -/
def slotFor (m : HistoryMode) (s : HistoryState) : HistFn :=
  match m with
  | .push => s.pushSlot
  | .replace => s.replaceSlot

/-- Subscriber callbacks delivered by one invocation of the current
`history.pushState` / `history.replaceState` slot: the wrapper broadcasts to
every subscriber after running the original; the unwrapped original notifies
nobody. -/
def historySlotCall (s : HistoryState) (m : HistoryMode) (subs : List Nat) : List Nat :=
  match slotFor m s with
  | .patched => subs
  | .original => []

/-- Subscriber callbacks delivered by one `applyUrl` commit: the call through
the current history slot, followed by the engine's own unconditional
`pushStateEventManager.notify()`. -/
def applyUrlNotifications (s : HistoryState) (m : HistoryMode) (subs : List Nat) : List Nat :=
  historySlotCall s m subs ++ subs

/-- Outcome of mounting one engine instance. -/
structure MountOutcome where
  url : Url
  commits : List (Url × HistoryMode)
  hist : HistoryState
  params : Except String (List (String × Option JSValue) × List ErrEvent × List ValEvent)

/-- The mount path of `useQueryParams`: the `useState` initializer computes
the snapshot, and the mount effect patches history and subscribes.  No step of
it writes to the address. -/
def mountEngine (cfg : Config) (opts : Options) (url : Url) (h : HistoryState) : MountOutcome :=
  ⟨url, [], patchHistory h, getParamsE cfg opts url.search⟩

/-- Runtime values instrumented with heap identity: `Date`, array and object
values carry the allocation id that JavaScript `===` compares them by;
primitives compare by value. -/
inductive RValue where
  | str (s : String)
  | num (n : JSNum)
  | bool (b : Bool)
  | dateRef (id : Nat) (t : Int)
  | arrRef (id : Nat) (xs : List String)
  | objRef (id : Nat) (j : JsonVal)
  | jsnull

/-- The allocation id of a heap value, if any. -/
def RValue.refId : RValue → Option Nat
  | .dateRef i _ => some i
  | .arrRef i _ => some i
  | .objRef i _ => some i
  | _ => none

/-- JavaScript `===` on the instrumented values: primitives by value (with
`NaN === NaN` false), heap values by allocation id. -/
def jsEqR : RValue → RValue → Bool
  | .str a, .str b => a == b
  | .num a, .num b => if a = .nan ∨ b = .nan then false else a == b
  | .bool a, .bool b => a == b
  | .dateRef i _, .dateRef j _ => i == j
  | .arrRef i _, .arrRef j _ => i == j
  | .objRef i _, .objRef j _ => i == j
  | .jsnull, .jsnull => true
  | _, _ => false

/-- The options fragment `getParams` reads, over instrumented values: the
default values are allocated once per engine instance (their ids are fixed
across reads), validators are modelled pure here (the `Except` model above
covers throwing ones), and custom parsers are modelled pure. -/
structure ROptions where
  defaultValues : List (String × RValue) := []
  validation : List (String × (RValue → Bool)) := []
  customParse : List (String × (String → Option RValue)) := []

/-- Is this instrumented value JavaScript `null`. -/
def RValue.isNullR : RValue → Bool
  | .jsnull => true
  | _ => false

/-- JavaScript truthiness on instrumented values. -/
def rvTruthy : RValue → Bool
  | .str s => s ≠ ""
  | .num n => n ≠ .finite 0 && n ≠ .nan
  | .bool b => b
  | .jsnull => false
  | _ => true

/-- `v.parseSingle` with allocation: a successful date decode constructs a
fresh `Date`; every other outcome is a primitive or absent.  The second
component is the next fresh id. -/
def parseSingleR :
    Option String → SingleType → Option (String → Option RValue) → Nat →
      Option RValue × Nat
  | none, _, _, i => (none, i)
  | some v, _, some p, i => (p v, i)
  | some v, .string, none, i => (some (.str v), i)
  | some v, .number, none, i =>
      let n := jsStrToNum v
      (if n.isFinite then some (.num n) else none, i)
  | some v, .boolean, none, i =>
      (if v = "true" ∨ v = "1" then some (.bool true)
       else if v = "false" ∨ v = "0" then some (.bool false)
       else none, i)
  | some v, .date, none, i =>
      match jsDateParse v with
      | some ts => (some (.dateRef i ts), i + 1)
      | none => (none, i)

/-- JavaScript `a ?? b` over instrumented values. -/
def nullishOrR (a : Option RValue) (b : Option RValue) : Option RValue :=
  match a with
  | some .jsnull => b
  | some v => some v
  | none => b

/-- The `getParams` loop body for one key, with allocation: `getAll` always
allocates a fresh array (and the `[]` fallback literal allocates another),
`JSON.parse` allocates when it yields a structure, a valid date decode
allocates a `Date`; defaults are the shared pre-allocated values; the
validator (when configured) may swap the value for the shared default. -/
def tagReadR (opts : ROptions) (sp : SP) (k : String) :
    QueryParamType → Nat → Option RValue × Nat
  | .stringArray, i =>
      let values := SP.getAll sp k
      if values ≠ [] then (some (.arrRef i values), i + 1)
      else
        match List.lookup k opts.defaultValues with
        | some dv => if rvTruthy dv then (some dv, i + 1) else (some (.arrRef (i + 1) []), i + 2)
        | none => (some (.arrRef (i + 1) []), i + 2)
  | .object, i =>
      (match parseObject (SP.get sp k) with
       | some (.jarr l) => (some (.objRef i (.jarr l)), i + 1)
       | some (.jobj l) => (some (.objRef i (.jobj l)), i + 1)
       | some (.jnum m) => (some (.num (.finite m)), i)
       | some (.jstr s) => (some (.str s), i)
       | some (.jbool b) => (some (.bool b), i)
       | some .null => (List.lookup k opts.defaultValues, i)
       | none => (List.lookup k opts.defaultValues, i))
  | .single t, i =>
      let p := parseSingleR (SP.get sp k) t (List.lookup k opts.customParse) i
      (nullishOrR p.1 (List.lookup k opts.defaultValues), p.2)

/-- The validation tail of the loop body over instrumented values (validators
are modelled pure here; the `Except` model covers throwing ones). -/
def validateR (opts : ROptions) (k : String) (v1 : Option RValue) : Option RValue :=
  match List.lookup k opts.validation with
  | none => v1
  | some f =>
      match v1 with
      | none => none
      | some val =>
          if val.isNullR then some val
          else if f val then some val else List.lookup k opts.defaultValues

def readKeyR (opts : ROptions) (sp : SP) (k : String) (tag : QueryParamType) (i : Nat) :
    Option RValue × Nat :=
  let p := tagReadR opts sp k tag i
  (validateR opts k p.1, p.2)

/-- `getParams` with allocation: fold the declaration map, threading the
fresh-id counter. -/
def getParamsR (cfg : Config) (opts : ROptions) (sp : SP) (i : Nat) :
    List (String × Option RValue) × Nat :=
  match cfg with
  | [] => ([], i)
  | (k, tag) :: rest =>
      let (v, i1) := readKeyR opts sp k tag i
      let (out, i2) := getParamsR rest opts sp i1
      ((k, v) :: out, i2)

/-- An instrumented snapshot: the snapshot object's own allocation id plus its
entries. -/
abbrev RSnapshot := Nat × List (String × Option RValue)

/-- One full snapshot computation: allocate the result object, then fill it
key by key. -/
def snapshotRead (cfg : Config) (opts : ROptions) (sp : SP) (i : Nat) : RSnapshot × Nat :=
  let (out, i1) := getParamsR cfg opts sp (i + 1)
  ((i, out), i1)

/-- Property lookup `o[k]` on snapshot entries: a missing key reads as
`undefined`. -/
def entryLookup (k : String) (l : List (String × Option RValue)) : Option RValue :=
  match List.lookup k l with
  | some v => v
  | none => none

/-- `===` on optional (possibly `undefined`) values. -/
def jsEqOptR : Option RValue → Option RValue → Bool
  | none, none => true
  | some a, some b => jsEqR a b
  | _, _ => false

/-- `shallowEqual` on instrumented snapshots: reference identity first, then
key-count equality, then per-key `===`. -/
def shallowEqualR (a b : RSnapshot) : Bool :=
  if a.1 = b.1 then true
  else if (a.2.map (fun e => e.1)).length ≠ (b.2.map (fun e => e.1)).length then false
  else a.2.all (fun e => jsEqOptR e.2 (entryLookup e.1 b.2))

/-- JavaScript object spread `{ ...prev, ...next }` on snapshot entries. -/
def mergeEntries (a b : List (String × Option RValue)) : List (String × Option RValue) :=
  a.map (fun e => match List.lookup e.1 b with | some v => (e.1, v) | none => e) ++
    b.filter (fun e => (List.lookup e.1 a).isNone)

/-- The `setParams` state updater: keep the previous snapshot when shallowly
equal, else allocate the merged object. -/
def setParamsUpdate (prev next : RSnapshot) (fresh : Nat) : RSnapshot :=
  if shallowEqualR prev next then prev else (fresh, mergeEntries prev.2 next.2)

theorem digitsVal_append (l : List Char) (c : Char) :
    digitsVal (l ++ [c]) = 10 * digitsVal l + (c.toNat - 48) := by
  unfold digitsVal
  rw [List.foldl_append]
  rfl

theorem digitChar_toNat (n : Nat) (h : n < 10) : (digitChar n).toNat = 48 + n := by
  unfold digitChar
  interval_cases n <;> decide

theorem isDigitChar_digitChar (n : Nat) (h : n < 10) : isDigitChar (digitChar n) = true := by
  unfold digitChar isDigitChar
  interval_cases n <;> decide

theorem natToDigitsAux_spec (fuel : Nat) : ∀ n : Nat, n < fuel →
    natToDigitsAux fuel n ≠ [] ∧ (natToDigitsAux fuel n).all isDigitChar = true ∧
      digitsVal (natToDigitsAux fuel n) = n := by
  induction fuel with
  | zero => intro n h; omega
  | succ fuel ih =>
      intro n h
      by_cases h10 : n < 10
      · refine ⟨?_, ?_, ?_⟩ <;> simp only [natToDigitsAux, if_pos h10]
        · simp
        · simp [isDigitChar_digitChar n h10]
        · show digitsVal ([] ++ [digitChar n]) = n
          rw [digitsVal_append, digitChar_toNat n h10]
          simp [digitsVal]
      · have hn : 0 < n := by omega
        have hdiv : n / 10 < fuel :=
          Nat.lt_of_lt_of_le (Nat.div_lt_self hn (by norm_num)) (by omega)
        obtain ⟨hne, hall, hval⟩ := ih (n / 10) hdiv
        have hmod : n % 10 < 10 := Nat.mod_lt _ (by norm_num)
        refine ⟨?_, ?_, ?_⟩ <;> simp only [natToDigitsAux, if_neg h10]
        · simp
        · rw [List.all_append]
          simp [hall, isDigitChar_digitChar (n % 10) hmod]
        · rw [digitsVal_append, hval, digitChar_toNat _ hmod]
          omega

theorem natToDigitList_ne_nil (n : Nat) : natToDigitList n ≠ [] :=
  (natToDigitsAux_spec (n + 1) n (by omega)).1

theorem natToDigitList_all_digits (n : Nat) :
    (natToDigitList n).all isDigitChar = true :=
  (natToDigitsAux_spec (n + 1) n (by omega)).2.1

theorem digitsVal_natToDigitList (n : Nat) : digitsVal (natToDigitList n) = n :=
  (natToDigitsAux_spec (n + 1) n (by omega)).2.2

theorem all_digits_ne_of_head (l r : List Char) (c : Char) (hall : l.all isDigitChar = true)
    (hc : isDigitChar c = false) : l ≠ c :: r := by
  intro h
  rw [h, List.all_cons, hc] at hall
  simp at hall

theorem jsStrToNum_digits (l : List Char) (hne : l ≠ []) (hall : l.all isDigitChar = true) :
    jsStrToNum (String.mk l) = .finite (digitsVal l) := by
  have hNaN : ¬ (String.mk l = "NaN") := by
    intro h
    exact all_digits_ne_of_head l _ 'N' hall (by decide) (congrArg String.data h)
  have hInf : ¬ (String.mk l = "Infinity") := by
    intro h
    exact all_digits_ne_of_head l _ 'I' hall (by decide) (congrArg String.data h)
  have hNinf : ¬ (String.mk l = "-Infinity") := by
    intro h
    exact all_digits_ne_of_head l _ '-' hall (by decide) (congrArg String.data h)
  have hEmpty : ¬ (String.mk l = "") := by
    intro h
    exact hne (congrArg String.data h)
  unfold jsStrToNum
  rw [if_neg hEmpty, if_neg hNaN, if_neg hInf, if_neg hNinf]
  cases l with
  | nil => exact absurd rfl hne
  | cons c rest =>
      have hc : isDigitChar c = true := by
        rw [List.all_cons] at hall
        exact (Bool.and_eq_true_iff.mp hall).1
      have hcne : ¬ (c = '-') := by
        intro h
        rw [h] at hc
        simp [isDigitChar] at hc
      show (if c = '-' then _ else _) = _
      rw [if_neg hcne, if_pos hall]

theorem jsStrToNum_neg_digits (l : List Char) (hne : l ≠ [])
    (hall : l.all isDigitChar = true) :
    jsStrToNum (String.mk ('-' :: l)) = .finite (-(digitsVal l : Int)) := by
  have hNaN : ¬ (String.mk ('-' :: l) = "NaN") := by
    intro h
    have := congrArg String.data h
    simp at this
  have hInf : ¬ (String.mk ('-' :: l) = "Infinity") := by
    intro h
    have := congrArg String.data h
    simp at this
  have hNinf : ¬ (String.mk ('-' :: l) = "-Infinity") := by
    intro h
    have hd := congrArg String.data h
    have hl : l = ['I', 'n', 'f', 'i', 'n', 'i', 't', 'y'] := by
      have : ('-' :: l) = ('-' :: ['I', 'n', 'f', 'i', 'n', 'i', 't', 'y']) := hd
      exact List.cons.inj this |>.2
    rw [hl] at hall
    simp [isDigitChar] at hall
  have hEmpty : ¬ (String.mk ('-' :: l) = "") := by
    intro h
    have := congrArg String.data h
    simp at this
  unfold jsStrToNum
  rw [if_neg hEmpty, if_neg hNaN, if_neg hInf, if_neg hNinf]
  show (if ('-' : Char) = '-' then _ else _) = _
  rw [if_pos rfl, if_pos ⟨hne, hall⟩]

theorem jsStrToNum_jsNumToString (i : Int) :
    jsStrToNum (jsNumToString (.finite i)) = .finite i := by
  have hne := natToDigitList_ne_nil i.natAbs
  have hall := natToDigitList_all_digits i.natAbs
  have hval := digitsVal_natToDigitList i.natAbs
  by_cases hi : i < 0
  · show jsStrToNum (if i < 0 then _ else _) = _
    rw [if_pos hi, jsStrToNum_neg_digits _ hne hall, hval]
    congr 1
    omega
  · show jsStrToNum (if i < 0 then _ else _) = _
    rw [if_neg hi, jsStrToNum_digits _ hne hall, hval]
    congr 1
    omega

theorem intFromChars_digits (l : List Char) (hne : l ≠ [])
    (hall : l.all isDigitChar = true) :
    intFromChars l = some (digitsVal l : Int) := by
  cases l with
  | nil => exact absurd rfl hne
  | cons c rest =>
      have hc : isDigitChar c = true := by
        rw [List.all_cons] at hall
        exact (Bool.and_eq_true_iff.mp hall).1
      have hcne : ¬ (c = '-') := by
        intro h
        rw [h] at hc
        simp [isDigitChar] at hc
      simp only [intFromChars]
      rw [if_neg hcne, if_pos hall]

theorem intFromChars_neg_digits (l : List Char) (hne : l ≠ [])
    (hall : l.all isDigitChar = true) :
    intFromChars ('-' :: l) = some (-(digitsVal l : Int)) := by
  simp only [intFromChars]
  simp [hne, hall]

theorem jsDateParse_toISOString (t : Int) :
    jsDateParse (jsDateToISOString t) = some t := by
  have hne := natToDigitList_ne_nil t.natAbs
  have hall := natToDigitList_all_digits t.natAbs
  have hval := digitsVal_natToDigitList t.natAbs
  unfold jsDateParse jsDateToISOString
  rw [String.data_append (jsNumToString (.finite t)) "Z"]
  have hz : ("Z" : String).data = ['Z'] := rfl
  rw [hz, List.reverse_append]
  show (match ('Z' :: (jsNumToString (.finite t)).data.reverse : List Char) with
        | [] => none
        | c :: restRev => if c = 'Z' then intFromChars restRev.reverse else none) = some t
  show (if ('Z' : Char) = 'Z' then intFromChars (jsNumToString (.finite t)).data.reverse.reverse
        else none) = some t
  rw [if_pos rfl, List.reverse_reverse]
  by_cases hi : t < 0
  · show intFromChars (jsNumToString (.finite t)).data = some t
    have hd : (jsNumToString (.finite t)).data = '-' :: natToDigitList t.natAbs := by
      simp only [jsNumToString]
      rw [if_pos hi]
    rw [hd, intFromChars_neg_digits _ hne hall, hval]
    congr 1
    omega
  · show intFromChars (jsNumToString (.finite t)).data = some t
    have hd : (jsNumToString (.finite t)).data = natToDigitList t.natAbs := by
      simp only [jsNumToString]
      rw [if_neg hi]
    rw [hd, intFromChars_digits _ hne hall, hval]
    congr 1
    omega

/-- Does a runtime value conform to a scalar tag, in the sense the built-in
serializer accepts (finiteness included for numbers)? -/
def encValue : SingleType → JSValue → Bool
  | .string, .str _ => true
  | .number, .num n => n.isFinite
  | .boolean, .bool _ => true
  | .date, .date _ => true
  | _, _ => false

theorem parse_serialize_number (i : Int) :
    parseSingle (some (jsNumToString (.finite i))) .number none false "" =
      (some (.num (.finite i)), []) := by
  simp only [parseSingle, jsStrToNum_jsNumToString]
  rfl

theorem parse_serialize_date (ts : Int) :
    parseSingle (some (jsDateToISOString ts)) .date none false "" =
      (some (.date ts), []) := by
  simp only [parseSingle, jsDateParse_toISOString]

/-- C8: for every scalar type tag (`string`, `number`, `boolean`, `date`) and
every conforming value, decoding the encoding returns the value (with no error
report); and the values encode intentionally cannot represent — non-finite
numbers — fail to encode (absent) instead of round-tripping. -/
theorem C8_codec_round_trip :
    (∀ (t : SingleType) (v : JSValue), encValue t v = true →
        parseSingle ((serializeSingle (some v) (some t) none false "").1) t none false "" =
          (some v, [])) ∧
    (∀ n : JSNum, n.isFinite = false →
        (serializeSingle (some (.num n)) (some .number) none false "").1 = none) := by
  constructor
  · intro t v h
    cases t <;> cases v <;> first | exact Bool.noConfusion h | skip
    · rfl
    · rename_i n
      cases n with
      | finite i => exact parse_serialize_number i
      | nan => exact Bool.noConfusion h
      | inf => exact Bool.noConfusion h
      | ninf => exact Bool.noConfusion h
    · rename_i b
      cases b <;> rfl
    · rename_i ts
      exact parse_serialize_date ts
  · intro n h
    cases n with
    | finite i => exact Bool.noConfusion h
    | nan => rfl
    | inf => rfl
    | ninf => rfl

/-- C8 witness: the round trip at the concrete finite number `3`, and the
encode failure at `NaN`. -/
theorem C8_codec_round_trip_witness :
    encValue .number (.num (.finite 3)) = true ∧
    parseSingle ((serializeSingle (some (.num (.finite 3))) (some .number) none false "").1)
        .number none false "" = (some (.num (.finite 3)), []) ∧
    JSNum.isFinite .nan = false ∧
    (serializeSingle (some (.num .nan)) (some .number) none false "").1 = none :=
  ⟨rfl, C8_codec_round_trip.1 .number (.num (.finite 3)) rfl, rfl,
    C8_codec_round_trip.2 .nan rfl⟩

/-- The declaration, options, and address of the default-materialization
scenario: `{page: number}` with default `{page: 1}` and no `page` in the
address. -/
def pageConfig : Config := [("page", .single .number)]

/-- Options with only a default value for `page`. -/
def pageDefaultsOptions : Options := { defaultValues := [("page", .num (.finite 1))] }

/-- An address with an empty query string. -/
def appUrl : Url := ⟨"/app", [], ""⟩

/-- C1: the interception is not reference-counted.  Evaluating the history
state machine on mount–mount–unmount: the second `patchHistory` call returns
early without touching `patchCount`, so a single `unpatchHistory` already
restores the original entry points verbatim and clears the interception — the
wrapped primitives then notify nobody, although one engine instance is still
mounted.  This contradicts the claim, which requires the interception to stay
active until the second unmount. -/
theorem C1_interception_not_refcounted :
    (patchHistory (patchHistory initialHistoryState)).patchCount = 1 ∧
    unpatchHistory (patchHistory (patchHistory initialHistoryState)) = initialHistoryState ∧
    historySlotCall (unpatchHistory (patchHistory (patchHistory initialHistoryState)))
        .push [7] = [] :=
  ⟨rfl, rfl, rfl⟩

/-- C2: mounting never writes configured defaults into the address.  At the
claim's own input (`{page: number}`, default `{page: 1}`, no `page` in the
address) the mount path performs no commit and leaves the query string without
a `page` key; only the published in-memory value mapping carries `page = 1`. -/
theorem C2_defaults_not_materialized :
    (mountEngine pageConfig pageDefaultsOptions appUrl initialHistoryState).commits = [] ∧
    (mountEngine pageConfig pageDefaultsOptions appUrl initialHistoryState).url = appUrl ∧
    SP.get (mountEngine pageConfig pageDefaultsOptions appUrl initialHistoryState).url.search
        "page" = none ∧
    (mountEngine pageConfig pageDefaultsOptions appUrl initialHistoryState).params =
      .ok ([("page", some (.num (.finite 1)))], [], []) :=
  ⟨rfl, rfl, rfl, rfl⟩

/-- C10: while the interception is installed, one engine commit (`applyUrl`)
delivers exactly two callbacks to each registered subscriber: one from the
wrapped history primitive's broadcast and one from the engine's own
`notify()` issued right after. -/
theorem C10_engine_commit_notifies_twice (s : HistoryState) (m : HistoryMode)
    (subs : List Nat) (x : Nat) (hp : slotFor m s = .patched) (hr : subs.count x = 1) :
    (applyUrlNotifications s m subs).count x = 2 := by
  unfold applyUrlNotifications historySlotCall
  rw [hp, List.count_append, hr]

/-- C10 witness: a freshly patched state, one subscriber, one push commit. -/
theorem C10_engine_commit_notifies_twice_witness :
    slotFor .push (patchHistory initialHistoryState) = .patched ∧
    ([5] : List Nat).count 5 = 1 ∧
    (applyUrlNotifications (patchHistory initialHistoryState) .push [5]).count 5 = 2 :=
  ⟨rfl, by decide, C10_engine_commit_notifies_twice _ _ _ _ rfl (by decide)⟩

theorem JSValue.isNull_eq_false (v : JSValue) (h : v ≠ .jsnull) : v.isNull = false := by
  cases v <;> first | exact absurd rfl h | rfl

/-- C6: for a key with a configured validator and a present non-null
decoded-or-defaulted value, the validator runs exactly once, against exactly
that value (the invocation trace is the singleton); when it returns `false`
and `onError` is configured, exactly one `Validation failed for <key>` report
is appended, and the value is replaced by the configured default — which is
not re-validated, whatever the validator would say about it. -/
theorem C6_validator_single_pass (opts : Options) (sp : SP) (k : String)
    (tag : QueryParamType) (f : JSValue → Except String Bool) (val : JSValue)
    (evs0 : List ErrEvent) (b : Bool)
    (hv : List.lookup k opts.validation = some f)
    (hraw : rawRead opts sp k tag = (some val, evs0))
    (hnn : val ≠ .jsnull)
    (hfb : f val = .ok b)
    (hoe : opts.hasOnError = true) :
    readKeyE opts sp k tag =
      .ok (if b then some val else List.lookup k opts.defaultValues,
           evs0 ++ (if b then [] else [⟨k, "Validation failed for " ++ k⟩]),
           [⟨k, val⟩]) := by
  unfold readKeyE
  rw [hraw, hv]
  show validateStep opts k f (some val) evs0 = _
  simp only [validateStep]
  rw [JSValue.isNull_eq_false val hnn, hfb]
  cases b
  · rw [hoe]
    rfl
  · simp

/-- The validator `page > 0` of the validation-replacement scenario. -/
def positivePageValidator : JSValue → Except String Bool :=
  fun v =>
    match v with
    | .num (.finite i) => .ok (decide (0 < i))
    | _ => .ok false

/-- Options of the validation-replacement scenario: default `{page: 1}`,
validator `page > 0`, an `onError` callback configured. -/
def pageValidationOptions : Options :=
  { defaultValues := [("page", .num (.finite 1))]
    validation := [("page", positivePageValidator)]
    hasOnError := true }

/-- C6 witness: reading `?page=-1` under the `page > 0` validator with default
`{page: 1}` replaces the value with the default, reports exactly one
validation failure, and invokes the validator exactly once (on `-1`). -/
theorem C6_validator_single_pass_witness :
    List.lookup "page" pageValidationOptions.validation = some positivePageValidator ∧
    rawRead pageValidationOptions [("page", "-1")] "page" (.single .number) =
      (some (.num (.finite (-1))), []) ∧
    JSValue.num (.finite (-1)) ≠ .jsnull ∧
    positivePageValidator (.num (.finite (-1))) = .ok false ∧
    pageValidationOptions.hasOnError = true ∧
    readKeyE pageValidationOptions [("page", "-1")] "page" (.single .number) =
      .ok (if false then some (.num (.finite (-1)))
           else List.lookup "page" pageValidationOptions.defaultValues,
           [] ++ (if false then []
                  else [⟨"page", "Validation failed for page"⟩]),
           [⟨"page", .num (.finite (-1))⟩]) :=
  ⟨rfl, rfl, fun h => JSValue.noConfusion h, rfl, rfl,
    C6_validator_single_pass _ _ _ _ _ _ _ _ rfl rfl (fun h => JSValue.noConfusion h) rfl rfl⟩

theorem lookup_mem {β : Type _} (k : String) (v : β) :
    ∀ l : List (String × β), List.lookup k l = some v → (k, v) ∈ l := by
  intro l
  induction l with
  | nil => intro h; simp [List.lookup] at h
  | cons e rest ih =>
      obtain ⟨k2, v2⟩ := e
      intro h
      rw [List.lookup] at h
      rcases hbe : (k == k2) with _ | _
      · rw [hbe] at h
        exact List.mem_cons_of_mem _ (ih h)
      · rw [hbe] at h
        have hk : k = k2 := beq_iff_eq.mp hbe
        have hv : v2 = v := Option.some.inj h
        rw [hk, hv]
        exact List.mem_cons_self _ _

theorem readKeyE_ok (opts : Options) (sp : SP) (k : String) (tag : QueryParamType)
    (hval : ∀ p ∈ opts.validation, ∀ v : JSValue, ∃ b, p.2 v = .ok b) :
    ∃ r, readKeyE opts sp k tag = .ok r := by
  unfold readKeyE
  rcases hr : rawRead opts sp k tag with ⟨v0, evs⟩
  rcases hlk : List.lookup k opts.validation with _ | f
  · exact ⟨_, rfl⟩
  · show ∃ r, validateStep opts k f v0 evs = .ok r
    rcases v0 with _ | val
    · exact ⟨_, rfl⟩
    · simp only [validateStep]
      rcases hn : val.isNull with _ | _
      · obtain ⟨b, hb⟩ := hval (k, f) (lookup_mem k f opts.validation hlk) val
        have hb2 : f val = Except.ok b := hb
        rw [hb2]
        cases b
        · exact ⟨_, rfl⟩
        · exact ⟨_, rfl⟩
      · exact ⟨_, rfl⟩

theorem getParamsE_ok (cfg : Config) (opts : Options) (sp : SP)
    (hval : ∀ p ∈ opts.validation, ∀ v : JSValue, ∃ b, p.2 v = Except.ok b) :
    ∃ r, getParamsE cfg opts sp = .ok r := by
  induction cfg with
  | nil => exact ⟨_, rfl⟩
  | cons e rest ih =>
      obtain ⟨k, tag⟩ := e
      obtain ⟨r1, h1⟩ := readKeyE_ok opts sp k tag hval
      obtain ⟨r2, h2⟩ := ih
      obtain ⟨v, evs, vt⟩ := r1
      obtain ⟨out, evs2, vt2⟩ := r2
      refine ⟨((k, v) :: out, evs ++ evs2, vt ++ vt2), ?_⟩
      unfold getParamsE
      rw [h1, h2]

/-- C3 (amended): snapshot computation and patch application recover every
parse, serialize, and structured-codec failure locally — including a throwing
custom parser or serializer, which is caught inside `parseSingle` /
`serializeSingle` and reported instead of propagating.  However, an exception
thrown by a configured validator is NOT caught: the snapshot computation only
returns normally when every configured validator returns (rather than
throws), and the counterexample shows a throwing validator escaping to the
caller. -/
theorem C3_failures_not_propagated (cfg : Config) (opts : Options) (sp : SP)
    (hval : ∀ p ∈ opts.validation, ∀ v : JSValue, ∃ b, p.2 v = Except.ok b) :
    (∃ r, getParamsE cfg opts sp = .ok r) ∧
    (∀ (raw : String) (t : SingleType) (k m : String),
        parseSingle (some raw) t (some (fun _ => Except.error m)) true k =
          (none, [⟨k, m⟩])) ∧
    (∀ (v : Option JSValue) (t : Option SingleType) (k m : String),
        serializeSingle v t (some (fun _ => Except.error m)) true k =
          (none, [⟨k, m⟩])) := by
  refine ⟨getParamsE_ok cfg opts sp hval, ?_, ?_⟩
  · intro raw t k m
    rfl
  · intro v t k m
    rfl

/-- A configured validator that itself throws. -/
def throwingValidator : JSValue → Except String Bool :=
  fun _ => .error "validator exploded"

/-- Options carrying only the throwing validator for `page`. -/
def throwingValidatorOptions : Options :=
  { validation := [("page", throwingValidator)] }

/-- C3 counterexample: with declaration `{page: number}`, address `?page=1`
and a validator that throws, the snapshot computation aborts with the
validator's exception — the error kind "validation" does propagate as an
unhandled exception to the caller when the validator itself throws. -/
theorem C3_counterexample_validator_throw :
    getParamsE pageConfig throwingValidatorOptions [("page", "1")] =
      .error "validator exploded" := rfl

/-- C3 witness: the amended theorem at the validation-replacement options
(whose validator never throws) and at a throwing custom parser. -/
theorem C3_failures_not_propagated_witness :
    (∃ r, getParamsE pageConfig pageValidationOptions [("page", "-1")] = Except.ok r) ∧
    parseSingle (some "x") .number (some (fun _ => Except.error "boom")) true "k" =
      (none, [⟨"k", "boom"⟩]) := by
  have hval : ∀ p ∈ pageValidationOptions.validation, ∀ v : JSValue,
      ∃ b, p.2 v = Except.ok b := by
    intro p hp v
    have hp2 : p = ("page", positivePageValidator) := by
      simpa [pageValidationOptions] using hp
    subst hp2
    cases v <;> first | exact ⟨_, rfl⟩ | skip
    rename_i n
    cases n <;> exact ⟨_, rfl⟩
  exact ⟨(C3_failures_not_propagated pageConfig pageValidationOptions [("page", "-1")] hval).1,
    (C3_failures_not_propagated pageConfig pageValidationOptions [("page", "-1")] hval).2.1
      "x" .number "k" "boom"⟩

/-- Does the built-in scalar serializer accept this (possibly absent) value
for this tag? -/
def serializableSingle (t : SingleType) (v : Option JSValue) : Bool :=
  match t, v with
  | .string, some (.str _) => true
  | .number, some (.num n) => n.isFinite
  | .boolean, some (.bool _) => true
  | .date, some (.date _) => true
  | _, _ => false

theorem serializeSingle_builtin_mismatch (t : SingleType) (v : Option JSValue)
    (emit : Bool) (k : String) (h : serializableSingle t v = false) :
    serializeSingle v (some t) none emit k = (none, []) := by
  cases t <;> rcases v with _ | val <;> try rfl
  all_goals cases val <;> try rfl
  · exact Bool.noConfusion h
  · rename_i n
    have h2 : n.isFinite = false := h
    simp [serializeSingle, h2]
  · exact Bool.noConfusion h
  · exact Bool.noConfusion h

theorem filterKey_deleteKey (sp : SP) (k : String) :
    SP.filterKey (SP.deleteKey sp k) k = [] := by
  unfold SP.filterKey SP.deleteKey
  rw [List.filter_filter]
  apply List.filter_eq_nil_iff.mpr
  intro e _
  by_cases h : e.1 = k <;> simp [h]

/-- C4 (amended): a patch value that fails to serialize has its key deleted
from the working query string — omitted from the resulting address — but the
`onError` report only happens when a *custom* serializer throws; a value that
merely fails the built-in type check (non-string under `string`, non-finite or
non-numeric under `number`, ...) is dropped silently, with no report even when
`onError` is configured. -/
theorem C4_serialize_failure_silent_for_builtin (t : SingleType) (vb : Option JSValue)
    (k m : String) (sp : SP) (cfg : Config) (opts : Options)
    (hmis : serializableSingle t vb = false)
    (htag : List.lookup k cfg = some (.single t))
    (hcs : List.lookup k opts.customSerializers = none) :
    serializeSingle vb (some t) none true k = (none, []) ∧
    entryOp cfg opts k vb = (.del, []) ∧
    SP.filterKey (SP.applyOp sp k .del) k = [] ∧
    serializeSingle vb (some t) (some (fun _ => Except.error m)) true k =
      (none, [⟨k, m⟩]) := by
  refine ⟨serializeSingle_builtin_mismatch t vb true k hmis, ?_, ?_, rfl⟩
  · unfold entryOp
    rw [htag, hcs]
    show (match (serializeSingle vb (some t) none opts.hasOnError k).1 with
          | some s => POp.set s
          | none => POp.del,
          (serializeSingle vb (some t) none opts.hasOnError k).2) = (POp.del, [])
    rw [serializeSingle_builtin_mismatch t vb opts.hasOnError k hmis]
  · exact filterKey_deleteKey sp k

/-- Declaration with a single `string` key `k`. -/
def stringKeyConfig : Config := [("k", .single .string)]

/-- Options with only an `onError` callback configured. -/
def onErrorOptions : Options := { hasOnError := true }

/-- C4 counterexample: patching the number `5` onto the `string` key `k`
(with `onError` configured) removes `k` from the address and commits — but
the `onError` report list is empty: the serialize failure is NOT reported,
contradicting the claim's "AND the failure is reported via the onError
callback". -/
theorem C4_counterexample_builtin_mismatch_unreported :
    syncParams stringKeyConfig onErrorOptions ⟨"/p", [("k", "old")], ""⟩
        [("k", some (.num (.finite 5)))] none =
      ⟨⟨"/p", [], ""⟩, some (⟨"/p", [], ""⟩, .replace), []⟩ := rfl

/-- C4 witness: the amended theorem at the number-under-string mismatch. -/
theorem C4_serialize_failure_silent_for_builtin_witness :
    serializableSingle .string (some (.num (.finite 5))) = false ∧
    List.lookup "k" stringKeyConfig = some (.single .string) ∧
    List.lookup "k" onErrorOptions.customSerializers = none ∧
    (serializeSingle (some (.num (.finite 5))) (some .string) none true "k" = (none, []) ∧
     entryOp stringKeyConfig onErrorOptions "k" (some (.num (.finite 5))) = (.del, []) ∧
     SP.filterKey (SP.applyOp [("k", "old")] "k" .del) "k" = [] ∧
     serializeSingle (some (.num (.finite 5))) (some .string)
        (some (fun _ => Except.error "boom")) true "k" = (none, [⟨"k", "boom"⟩])) :=
  ⟨rfl, rfl, rfl,
    C4_serialize_failure_silent_for_builtin .string (some (.num (.finite 5))) "k" "boom"
      [("k", "old")] stringKeyConfig onErrorOptions rfl rfl rfl⟩

/-- Declaration with a single `object` key `f`. -/
def objectKeyConfig : Config := [("f", .object)]

/-- C7 (amended): the opaque-object codec is silent in both directions — the
object read path never produces an `onError` report and a decode failure
yields absent (when no default is configured), and the object patch path never
produces a report while an encode failure (`JSON.stringify` throwing, e.g. on
a BigInt) deletes the key, i.e. yields absent.  This is strictly quieter than
the scalar codecs on the decode side, which do report parse failures; the
scalar *encode* type-mismatch, however, is also silent (see the
counterexample), so "the scalar codecs do report" holds only for decode. -/
theorem C7_object_codec_silent (opts : Options) (sp : SP) (k : String)
    (cfg : Config) (val : Option JSValue) (raw s2 : String) (i : Int)
    (hget : SP.get sp k = some raw)
    (hfail : parseObject (some raw) = none)
    (hdef : List.lookup k opts.defaultValues = none)
    (htag : List.lookup k cfg = some .object)
    (henc : serializeObject val = none)
    (hnum : (jsStrToNum s2).isFinite = false) :
    (rawRead opts sp k .object).2 = [] ∧
    rawRead opts sp k .object = (none, []) ∧
    serializeObject (some (.bigintV i)) = none ∧
    (entryOp cfg opts k val).2 = [] ∧
    (entryOp cfg opts k val).1 = .del ∧
    parseSingle (some s2) .number none true k =
      (none, [⟨k, "Invalid number: " ++ s2⟩]) := by
  refine ⟨rfl, ?_, rfl, ?_, ?_, ?_⟩
  · simp only [rawRead]
    rw [hget, hfail, hdef]
    rfl
  · simp only [entryOp]
    rw [htag]
  · simp only [entryOp]
    rw [htag, henc]
  · simp [parseSingle, hnum]

/-- C7 counterexample: a scalar codec failure that is NOT reported — encoding
the boolean `true` under the `number` tag with `onError` configured yields
absent with an empty report list, refuting the claim's blanket "the scalar
codecs ... do report". -/
theorem C7_counterexample_scalar_encode_silent :
    serializeSingle (some (.bool true)) (some .number) none true "n" = (none, []) := rfl

/-- C7 witness: the amended theorem at a concrete undecodable raw value,
a BigInt patch value, and the unparsable number literal `abc`. -/
theorem C7_object_codec_silent_witness :
    SP.get [("f", "x")] "f" = some "x" ∧
    parseObject (some "x") = none ∧
    List.lookup "f" onErrorOptions.defaultValues = none ∧
    List.lookup "f" objectKeyConfig = some .object ∧
    serializeObject (some (.bigintV 1)) = none ∧
    (jsStrToNum "abc").isFinite = false ∧
    (rawRead onErrorOptions [("f", "x")] "f" .object = (none, []) ∧
     (entryOp objectKeyConfig onErrorOptions "f" (some (.bigintV 1))).1 = .del ∧
     parseSingle (some "abc") .number none true "f" =
       (none, [⟨"f", "Invalid number: " ++ "abc"⟩])) := by
  have h := C7_object_codec_silent onErrorOptions [("f", "x")] "f" objectKeyConfig
    (some (.bigintV 1)) "x" "abc" 1 rfl rfl rfl rfl rfl rfl
  exact ⟨rfl, rfl, rfl, rfl, rfl, rfl, h.2.1, h.2.2.2.2.1, h.2.2.2.2.2⟩

theorem SP.deleteKey_filterKey_ne (sp : SP) (k k2 : String) (h : k ≠ k2) :
    SP.filterKey (SP.deleteKey sp k) k2 = SP.filterKey sp k2 := by
  unfold SP.filterKey SP.deleteKey
  rw [List.filter_filter]
  apply List.filter_congr
  intro a _
  by_cases h2 : a.1 = k2
  · have h3 : ¬ (a.1 = k) := fun hh => h (hh.symm.trans h2)
    simp [h2, h3, Ne.symm h]
  · simp [h2]

theorem SP.append_filterKey_ne (sp : SP) (k v k2 : String) (h : k ≠ k2) :
    SP.filterKey (SP.append sp k v) k2 = SP.filterKey sp k2 := by
  unfold SP.append SP.filterKey
  rw [List.filter_append]
  simp [List.filter_cons, h]

theorem SP.appendAll_filterKey_ne (vs : List String) :
    ∀ (sp : SP) (k k2 : String), k ≠ k2 →
      SP.filterKey (vs.foldl (fun s v => SP.append s k v) sp) k2 = SP.filterKey sp k2 := by
  induction vs with
  | nil => intro sp k k2 _; rfl
  | cons x xs ih =>
      intro sp k k2 h
      show SP.filterKey (xs.foldl (fun s v => SP.append s k v) (SP.append sp k x)) k2 = _
      rw [ih (SP.append sp k x) k k2 h, SP.append_filterKey_ne sp k x k2 h]

theorem SP.set_filterKey_ne (sp : SP) (k v k2 : String) (h : k ≠ k2) :
    SP.filterKey (SP.set sp k v) k2 = SP.filterKey sp k2 := by
  induction sp with
  | nil => simp [SP.set, SP.filterKey, List.filter_cons, h]
  | cons e rest ih =>
      simp only [SP.set]
      by_cases hk : e.1 = k
      · rw [if_pos hk]
        have he2 : ¬ (e.1 = k2) := fun hh => h (hk.symm.trans hh)
        show SP.filterKey ((k, v) :: SP.deleteKey rest k) k2 = SP.filterKey (e :: rest) k2
        unfold SP.filterKey
        rw [List.filter_cons, List.filter_cons]
        simp only [show ¬ ((k, v).1 = k2) from h, show ¬ (e.1 = k2) from he2,
          beq_iff_eq, if_neg, decide_eq_true_eq]
        exact SP.deleteKey_filterKey_ne rest k k2 h
      · rw [if_neg hk]
        show SP.filterKey (e :: SP.set rest k v) k2 = SP.filterKey (e :: rest) k2
        unfold SP.filterKey
        rw [List.filter_cons, List.filter_cons]
        by_cases he2 : e.1 = k2
        · simp only [he2, beq_self_eq_true, if_pos]
          exact congrArg (e :: ·) ih
        · simp only [show (e.1 == k2) = false from beq_eq_false_iff_ne.mpr he2,
            Bool.false_eq_true, if_neg, not_false_iff]
          exact ih

theorem SP.applyOp_filterKey_ne (sp : SP) (k k2 : String) (op : POp) (h : k ≠ k2) :
    SP.filterKey (SP.applyOp sp k op) k2 = SP.filterKey sp k2 := by
  cases op with
  | set v => exact SP.set_filterKey_ne sp k v k2 h
  | del => exact SP.deleteKey_filterKey_ne sp k k2 h
  | setList vs =>
      show SP.filterKey (vs.foldl (fun s v => SP.append s k v) (SP.deleteKey sp k)) k2 = _
      rw [SP.appendAll_filterKey_ne vs (SP.deleteKey sp k) k k2 h,
          SP.deleteKey_filterKey_ne sp k k2 h]

theorem SP.set_filterKey_self (sp : SP) (k v : String) :
    SP.filterKey (SP.set sp k v) k = [(k, v)] := by
  induction sp with
  | nil => simp [SP.set, SP.filterKey, List.filter_cons]
  | cons e rest ih =>
      simp only [SP.set]
      by_cases hk : e.1 = k
      · rw [if_pos hk]
        show SP.filterKey ((k, v) :: SP.deleteKey rest k) k = [(k, v)]
        unfold SP.filterKey
        rw [List.filter_cons]
        simp only [beq_self_eq_true, if_pos]
        exact congrArg ((k, v) :: ·) (filterKey_deleteKey rest k)
      · rw [if_neg hk]
        show SP.filterKey (e :: SP.set rest k v) k = [(k, v)]
        unfold SP.filterKey
        rw [List.filter_cons]
        simp only [show (e.1 == k) = false from beq_eq_false_iff_ne.mpr hk,
          Bool.false_eq_true, if_neg, not_false_iff]
        exact ih

theorem SP.deleteKey_id (sp : SP) (k : String) (h : SP.filterKey sp k = []) :
    SP.deleteKey sp k = sp := by
  induction sp with
  | nil => rfl
  | cons e rest ih =>
      unfold SP.filterKey at h
      rw [List.filter_cons] at h
      by_cases hk : e.1 = k
      · rw [if_pos (by simp [hk])] at h
        exact List.noConfusion h
      · rw [if_neg (by simp [hk])] at h
        show List.filter (fun e => e.1 != k) (e :: rest) = e :: rest
        rw [List.filter_cons, if_pos (by simp [hk])]
        exact congrArg (e :: ·) (ih h)

theorem SP.set_id (sp : SP) (k v : String) (h : SP.filterKey sp k = [(k, v)]) :
    SP.set sp k v = sp := by
  induction sp with
  | nil => exact absurd h (by simp [SP.filterKey])
  | cons e rest ih =>
      unfold SP.filterKey at h
      rw [List.filter_cons] at h
      by_cases hk : e.1 = k
      · rw [if_pos (by simp [hk])] at h
        have he : e = (k, v) := (List.cons.inj h).1
        have hrest : SP.filterKey rest k = [] := (List.cons.inj h).2
        simp only [SP.set]
        rw [if_pos hk, SP.deleteKey_id rest k hrest, he]
      · rw [if_neg (by simp [hk])] at h
        simp only [SP.set]
        rw [if_neg hk, ih h]

/-- The query-string effect of the `syncParams` loop, separated from its
`onError` reports. -/
def applyOps (cfg : Config) (opts : Options) (sp : SP)
    (patch : List (String × Option JSValue)) : SP :=
  patch.foldl (fun s e => SP.applyOp s e.1 (entryOp cfg opts e.1 e.2).1) sp

theorem applyPatchSP_fst (cfg : Config) (opts : Options)
    (patch : List (String × Option JSValue)) :
    ∀ (sp : SP) (acc : List ErrEvent),
      (patch.foldl
        (fun acc2 e =>
          let (op, evs) := entryOp cfg opts e.1 e.2
          (SP.applyOp acc2.1 e.1 op, acc2.2 ++ evs)) (sp, acc)).1 =
        applyOps cfg opts sp patch := by
  induction patch with
  | nil => intro sp acc; rfl
  | cons p rest ih =>
      intro sp acc
      exact ih (SP.applyOp sp p.1 (entryOp cfg opts p.1 p.2).1)
        (acc ++ (entryOp cfg opts p.1 p.2).2)

theorem applyOps_preserve (cfg : Config) (opts : Options)
    (patch : List (String × Option JSValue)) :
    ∀ (sp : SP) (k : String), k ∉ patch.map (fun e => e.1) →
      SP.filterKey (applyOps cfg opts sp patch) k = SP.filterKey sp k := by
  induction patch with
  | nil => intro sp k _; rfl
  | cons p rest ih =>
      intro sp k hk
      have hk1 : p.1 ≠ k := by
        intro hh
        exact hk (by rw [List.map_cons, hh]; exact List.mem_cons_self _ _)
      have hk2 : k ∉ rest.map (fun e => e.1) := by
        intro hh
        exact hk (by rw [List.map_cons]; exact List.mem_cons_of_mem _ hh)
      show SP.filterKey
          (applyOps cfg opts (SP.applyOp sp p.1 (entryOp cfg opts p.1 p.2).1) rest) k = _
      rw [ih (SP.applyOp sp p.1 (entryOp cfg opts p.1 p.2).1) k hk2,
          SP.applyOp_filterKey_ne sp p.1 k (entryOp cfg opts p.1 p.2).1 hk1]

theorem entryOp_set_or_del (cfg : Config) (opts : Options) (k : String)
    (val : Option JSValue) (hnl : List.lookup k cfg ≠ some .stringArray) :
    (entryOp cfg opts k val).1 = .del ∨ ∃ v, (entryOp cfg opts k val).1 = .set v := by
  unfold entryOp
  rcases hlk : List.lookup k cfg with _ | tag
  · rcases hs : (serializeSingle val none
        ((List.lookup k opts.customSerializers).map (fun c => c.serialize))
        opts.hasOnError k).1 with _ | s
    · left
      simp [hs]
    · right
      exact ⟨s, by simp [hs]⟩
  · cases tag with
    | stringArray => exact absurd hlk hnl
    | object =>
        rcases hs : serializeObject val with _ | s
        · left
          simp [hs]
        · right
          exact ⟨s, by simp [hs]⟩
    | single t =>
        rcases hs : (serializeSingle val (some t)
            ((List.lookup k opts.customSerializers).map (fun c => c.serialize))
            opts.hasOnError k).1 with _ | s
        · left
          simp [hs]
        · right
          exact ⟨s, by simp [hs]⟩

theorem applyOps_final (cfg : Config) (opts : Options)
    (patch : List (String × Option JSValue)) :
    ∀ sp : SP, (patch.map (fun e => e.1)).Nodup →
      ∀ e ∈ patch,
        (∀ v, (entryOp cfg opts e.1 e.2).1 = .set v →
            SP.filterKey (applyOps cfg opts sp patch) e.1 = [(e.1, v)]) ∧
        ((entryOp cfg opts e.1 e.2).1 = .del →
            SP.filterKey (applyOps cfg opts sp patch) e.1 = []) := by
  induction patch with
  | nil => intro sp _ e he; cases he
  | cons p rest ih =>
      intro sp hnodup e he
      rw [List.map_cons] at hnodup
      have hnotmem : p.1 ∉ rest.map (fun e2 => e2.1) := (List.nodup_cons.mp hnodup).1
      have hndrest : (rest.map (fun e2 => e2.1)).Nodup := (List.nodup_cons.mp hnodup).2
      rcases List.mem_cons.mp he with rfl | he2
      · constructor
        · intro v hop
          show SP.filterKey
              (applyOps cfg opts (SP.applyOp sp e.1 (entryOp cfg opts e.1 e.2).1) rest)
              e.1 = _
          rw [applyOps_preserve cfg opts rest _ e.1 hnotmem, hop]
          exact SP.set_filterKey_self sp e.1 v
        · intro hop
          show SP.filterKey
              (applyOps cfg opts (SP.applyOp sp e.1 (entryOp cfg opts e.1 e.2).1) rest)
              e.1 = _
          rw [applyOps_preserve cfg opts rest _ e.1 hnotmem, hop]
          exact filterKey_deleteKey sp e.1
      · exact ih (SP.applyOp sp p.1 (entryOp cfg opts p.1 p.2).1) hndrest e he2

theorem applyOps_id (cfg : Config) (opts : Options)
    (patch : List (String × Option JSValue)) :
    ∀ sp : SP,
      (∀ e ∈ patch,
        (∀ vs, (entryOp cfg opts e.1 e.2).1 ≠ .setList vs) ∧
        (∀ v, (entryOp cfg opts e.1 e.2).1 = .set v →
            SP.filterKey sp e.1 = [(e.1, v)]) ∧
        ((entryOp cfg opts e.1 e.2).1 = .del → SP.filterKey sp e.1 = [])) →
      applyOps cfg opts sp patch = sp := by
  induction patch with
  | nil => intro sp _; rfl
  | cons p rest ih =>
      intro sp h
      have hp := h p (List.mem_cons_self _ _)
      have hstep : SP.applyOp sp p.1 (entryOp cfg opts p.1 p.2).1 = sp := by
        rcases hop : (entryOp cfg opts p.1 p.2).1 with v | _ | vs
        · exact SP.set_id sp p.1 v (hp.2.1 v hop)
        · exact SP.deleteKey_id sp p.1 (hp.2.2 hop)
        · exact absurd hop (hp.1 vs)
      show applyOps cfg opts (SP.applyOp sp p.1 (entryOp cfg opts p.1 p.2).1) rest = sp
      rw [hstep]
      exact ih sp (fun e he => h e (List.mem_cons_of_mem _ he))

theorem insEntry_filterKey_eq (x : String × String) (k : String) (hx : x.1 = k) :
    ∀ l : SP, SP.filterKey (insEntry x l) k = x :: SP.filterKey l k := by
  intro l
  induction l with
  | nil => simp [insEntry, SP.filterKey, List.filter_cons, hx]
  | cons y l2 ih =>
      simp only [insEntry]
      by_cases hy : y.1 < x.1
      · rw [if_pos hy]
        have hyk : ¬ (y.1 = k) := by
          intro hh
          rw [hx] at hy
          rw [hh] at hy
          exact lt_irrefl k hy
        show SP.filterKey (y :: insEntry x l2) k = x :: SP.filterKey (y :: l2) k
        unfold SP.filterKey
        rw [List.filter_cons, List.filter_cons]
        simp only [show (y.1 == k) = false from beq_eq_false_iff_ne.mpr hyk,
          Bool.false_eq_true, if_neg, not_false_iff]
        exact ih
      · rw [if_neg hy]
        show SP.filterKey (x :: y :: l2) k = x :: SP.filterKey (y :: l2) k
        unfold SP.filterKey
        rw [List.filter_cons]
        simp [hx]

theorem insEntry_filterKey_ne (x : String × String) (k : String) (hx : ¬ (x.1 = k)) :
    ∀ l : SP, SP.filterKey (insEntry x l) k = SP.filterKey l k := by
  intro l
  induction l with
  | nil => simp [insEntry, SP.filterKey, List.filter_cons, hx]
  | cons y l2 ih =>
      simp only [insEntry]
      by_cases hy : y.1 < x.1
      · rw [if_pos hy]
        show SP.filterKey (y :: insEntry x l2) k = SP.filterKey (y :: l2) k
        unfold SP.filterKey
        rw [List.filter_cons, List.filter_cons]
        by_cases hyk : y.1 = k
        · simp only [hyk, beq_self_eq_true, if_pos]
          exact congrArg (y :: ·) ih
        · simp only [show (y.1 == k) = false from beq_eq_false_iff_ne.mpr hyk,
            Bool.false_eq_true, if_neg, not_false_iff]
          exact ih
      · rw [if_neg hy]
        show SP.filterKey (x :: y :: l2) k = SP.filterKey (y :: l2) k
        unfold SP.filterKey
        rw [List.filter_cons]
        simp [hx]

theorem sortSP_filterKey (sp : SP) (k : String) :
    SP.filterKey (sortSP sp) k = SP.filterKey sp k := by
  induction sp with
  | nil => rfl
  | cons x l ih =>
      show SP.filterKey (insEntry x (sortSP l)) k = SP.filterKey (x :: l) k
      by_cases hx : x.1 = k
      · rw [insEntry_filterKey_eq x k hx (sortSP l), ih]
        unfold SP.filterKey
        rw [List.filter_cons]
        simp [hx]
      · rw [insEntry_filterKey_ne x k hx (sortSP l), ih]
        unfold SP.filterKey
        rw [List.filter_cons]
        simp [hx]

theorem canonSP_filterKey (b : Bool) (sp : SP) (k : String) :
    SP.filterKey (canonSP b sp) k = SP.filterKey sp k := by
  cases b with
  | false => rfl
  | true => exact sortSP_filterKey sp k

theorem filterKey_head_mem (v : SP) (k : String) (e : String × String) (rest : SP)
    (h : SP.filterKey v k = e :: rest) : e ∈ v ∧ e.1 = k := by
  have hmem : e ∈ SP.filterKey v k := by
    rw [h]
    exact List.mem_cons_self _ _
  unfold SP.filterKey at hmem
  have h2 := List.mem_filter.mp hmem
  exact ⟨h2.1, by simpa using h2.2⟩

/-- Two entry lists sorted by key with the same per-key entry subsequences are
equal: a stable key-sort's output is determined by the per-key filters. -/
theorem sorted_eq_of_filterKey :
    ∀ u v : SP, List.Pairwise (fun a b : String × String => a.1 ≤ b.1) u →
      List.Pairwise (fun a b : String × String => a.1 ≤ b.1) v →
      (∀ k, SP.filterKey u k = SP.filterKey v k) → u = v := by
  intro u
  induction u with
  | nil =>
      intro v _ _ hf
      rcases v with _ | ⟨b, v2⟩
      · rfl
      · exfalso
        have h := hf b.1
        unfold SP.filterKey at h
        rw [List.filter_cons] at h
        simp at h
  | cons a u2 ih =>
      intro v hsu hsv hf
      rcases v with _ | ⟨b, v2⟩
      · exfalso
        have h := hf a.1
        unfold SP.filterKey at h
        rw [List.filter_cons] at h
        simp at h
      · have htailu := (List.pairwise_cons.mp hsu).2
        have htailv := (List.pairwise_cons.mp hsv).2
        have hminu : ∀ e ∈ u2, a.1 ≤ e.1 := (List.pairwise_cons.mp hsu).1
        have hminv : ∀ e ∈ v2, b.1 ≤ e.1 := (List.pairwise_cons.mp hsv).1
        have hfa_cons : SP.filterKey (a :: u2) a.1 = a :: SP.filterKey u2 a.1 := by
          unfold SP.filterKey
          rw [List.filter_cons]
          simp
        have hfb_cons : SP.filterKey (b :: v2) b.1 = b :: SP.filterKey v2 b.1 := by
          unfold SP.filterKey
          rw [List.filter_cons]
          simp
        have hble : b.1 ≤ a.1 := by
          have h := (hf a.1).symm
          rw [hfa_cons] at h
          have hm := filterKey_head_mem (b :: v2) a.1 a (SP.filterKey u2 a.1) h
          rcases List.mem_cons.mp hm.1 with heq | hmem
          · exact le_of_eq (congrArg Prod.fst heq.symm)
          · exact hminv a hmem
        have hale : a.1 ≤ b.1 := by
          have h := hf b.1
          rw [hfb_cons] at h
          have hm := filterKey_head_mem (a :: u2) b.1 b (SP.filterKey v2 b.1) h
          rcases List.mem_cons.mp hm.1 with heq | hmem
          · exact le_of_eq (congrArg Prod.fst heq.symm)
          · exact hminu b hmem
        have hkey : b.1 = a.1 := le_antisymm hble hale
        have hfb_cons2 : SP.filterKey (b :: v2) a.1 = b :: SP.filterKey v2 a.1 := by
          unfold SP.filterKey
          rw [List.filter_cons]
          simp [hkey]
        have hab := hf a.1
        rw [hfa_cons, hfb_cons2] at hab
        have hhead : a = b := (List.cons.inj hab).1
        have htaila : SP.filterKey u2 a.1 = SP.filterKey v2 a.1 := (List.cons.inj hab).2
        have hrest : ∀ k, SP.filterKey u2 k = SP.filterKey v2 k := by
          intro k
          by_cases hk : a.1 = k
          · rw [← hk]
            exact htaila
          · have h := hf k
            have h1 : SP.filterKey (a :: u2) k = SP.filterKey u2 k := by
              unfold SP.filterKey
              rw [List.filter_cons]
              simp [hk]
            have h2 : SP.filterKey (b :: v2) k = SP.filterKey v2 k := by
              unfold SP.filterKey
              rw [List.filter_cons]
              simp [show ¬ (b.1 = k) from fun hh => hk (hkey.symm.trans hh)]
            rw [h1, h2] at h
            exact h
        rw [hhead, ih v2 htailu htailv hrest]

theorem mem_insEntry (x e : String × String) :
    ∀ l : SP, e ∈ insEntry x l → e = x ∨ e ∈ l := by
  intro l
  induction l with
  | nil =>
      intro h
      simp only [insEntry] at h
      rcases List.mem_cons.mp h with h1 | h1
      · exact Or.inl h1
      · exact absurd h1 (List.not_mem_nil e)
  | cons y l2 ih =>
      intro h
      simp only [insEntry] at h
      by_cases hy : y.1 < x.1
      · rw [if_pos hy] at h
        rcases List.mem_cons.mp h with h1 | h1
        · exact Or.inr (by rw [h1]; exact List.mem_cons_self _ _)
        · rcases ih h1 with h2 | h2
          · exact Or.inl h2
          · exact Or.inr (List.mem_cons_of_mem _ h2)
      · rw [if_neg hy] at h
        rcases List.mem_cons.mp h with h1 | h1
        · exact Or.inl h1
        · exact Or.inr h1

theorem insEntry_pairwise (x : String × String) :
    ∀ l : SP, List.Pairwise (fun a b : String × String => a.1 ≤ b.1) l →
      List.Pairwise (fun a b : String × String => a.1 ≤ b.1) (insEntry x l) := by
  intro l
  induction l with
  | nil =>
      intro _
      simp only [insEntry]
      exact List.pairwise_cons.mpr ⟨fun e he => absurd he (List.not_mem_nil e),
        List.Pairwise.nil⟩
  | cons y l2 ih =>
      intro h
      have hy2 := (List.pairwise_cons.mp h).1
      have hl2 := (List.pairwise_cons.mp h).2
      simp only [insEntry]
      by_cases hy : y.1 < x.1
      · rw [if_pos hy]
        refine List.pairwise_cons.mpr ⟨?_, ih hl2⟩
        intro e he
        rcases mem_insEntry x e l2 he with h1 | h1
        · rw [h1]
          exact le_of_lt hy
        · exact hy2 e h1
      · rw [if_neg hy]
        refine List.pairwise_cons.mpr ⟨?_, h⟩
        intro e he
        rcases List.mem_cons.mp he with h1 | h1
        · rw [h1]
          exact le_of_not_lt hy
        · exact le_trans (le_of_not_lt hy) (hy2 e h1)

theorem sortSP_pairwise : ∀ sp : SP,
    List.Pairwise (fun a b : String × String => a.1 ≤ b.1) (sortSP sp) := by
  intro sp
  induction sp with
  | nil => exact List.Pairwise.nil
  | cons x l ih => exact insEntry_pairwise x (sortSP l) ih

/-- The stable sort only looks at the per-key subsequences: lists with the
same per-key filters sort to the same result. -/
theorem sortSP_eq_of_filterKey (x y : SP)
    (hf : ∀ k, SP.filterKey x k = SP.filterKey y k) : sortSP x = sortSP y :=
  sorted_eq_of_filterKey (sortSP x) (sortSP y) (sortSP_pairwise x) (sortSP_pairwise y)
    (fun k => by rw [sortSP_filterKey, sortSP_filterKey, hf k])

theorem SP.appendChain_filterKey_self (vs : List String) :
    ∀ (s : SP) (k : String),
      SP.filterKey (vs.foldl (fun s2 v => SP.append s2 k v) s) k =
        SP.filterKey s k ++ vs.map (fun v => (k, v)) := by
  induction vs with
  | nil =>
      intro s k
      simp
  | cons x xs ih =>
      intro s k
      show SP.filterKey (xs.foldl (fun s2 v => SP.append s2 k v) (SP.append s k x)) k = _
      rw [ih (SP.append s k x) k]
      have happ : SP.filterKey (SP.append s k x) k = SP.filterKey s k ++ [(k, x)] := by
        unfold SP.append SP.filterKey
        rw [List.filter_append]
        simp
      rw [happ, List.append_assoc]
      rfl

/-- Final state of the `string[]` mutation at its own key: exactly the new
value list, in order, regardless of the starting entries. -/
theorem SP.applyOp_filterKey_self_of_setList (sp : SP) (k : String) (vs : List String) :
    SP.filterKey (SP.applyOp sp k (.setList vs)) k = vs.map (fun v => (k, v)) := by
  show SP.filterKey (vs.foldl (fun s v => SP.append s k v) (SP.deleteKey sp k)) k = _
  rw [SP.appendChain_filterKey_self vs (SP.deleteKey sp k) k, filterKey_deleteKey]
  rfl

theorem applyOps_final_setList (cfg : Config) (opts : Options)
    (patch : List (String × Option JSValue)) :
    ∀ sp : SP, (patch.map (fun e => e.1)).Nodup →
      ∀ e ∈ patch, ∀ vs, (entryOp cfg opts e.1 e.2).1 = .setList vs →
        SP.filterKey (applyOps cfg opts sp patch) e.1 = vs.map (fun v => (e.1, v)) := by
  induction patch with
  | nil => intro sp _ e he; cases he
  | cons p rest ih =>
      intro sp hnodup e he vs hop
      rw [List.map_cons] at hnodup
      have hnotmem : p.1 ∉ rest.map (fun e2 => e2.1) := (List.nodup_cons.mp hnodup).1
      have hndrest : (rest.map (fun e2 => e2.1)).Nodup := (List.nodup_cons.mp hnodup).2
      rcases List.mem_cons.mp he with rfl | he2
      · show SP.filterKey
            (applyOps cfg opts (SP.applyOp sp e.1 (entryOp cfg opts e.1 e.2).1) rest)
            e.1 = _
        rw [applyOps_preserve cfg opts rest _ e.1 hnotmem, hop]
        exact SP.applyOp_filterKey_self_of_setList sp e.1 vs
      · exact ih (SP.applyOp sp p.1 (entryOp cfg opts p.1 p.2).1) hndrest e he2 vs hop

/-- When every patch entry's final effect is already realized in the starting
entries (per key, up to filter), the loop changes no per-key subsequence. -/
theorem applyOps_filterKey_eq (cfg : Config) (opts : Options)
    (patch : List (String × Option JSValue))
    (hnodup : (patch.map (fun e => e.1)).Nodup) (t : SP)
    (h : ∀ e ∈ patch,
      (∀ v, (entryOp cfg opts e.1 e.2).1 = .set v → SP.filterKey t e.1 = [(e.1, v)]) ∧
      ((entryOp cfg opts e.1 e.2).1 = .del → SP.filterKey t e.1 = []) ∧
      (∀ vs, (entryOp cfg opts e.1 e.2).1 = .setList vs →
          SP.filterKey t e.1 = vs.map (fun v => (e.1, v)))) :
    ∀ k, SP.filterKey (applyOps cfg opts t patch) k = SP.filterKey t k := by
  intro k
  by_cases hk : k ∈ patch.map (fun e => e.1)
  · obtain ⟨e, he, hek⟩ := List.mem_map.mp hk
    subst hek
    rcases hop : (entryOp cfg opts e.1 e.2).1 with v | _ | vs
    · rw [(applyOps_final cfg opts patch t hnodup e he).1 v hop, (h e he).1 v hop]
    · rw [(applyOps_final cfg opts patch t hnodup e he).2 hop, (h e he).2.1 hop]
    · rw [applyOps_final_setList cfg opts patch t hnodup e he vs hop,
          (h e he).2.2 vs hop]
  · exact applyOps_preserve cfg opts patch t k hk

theorem syncParams_eq (cfg : Config) (opts : Options) (url : Url)
    (patch : List (String × Option JSValue)) (mode : Option HistoryMode) :
    syncParams cfg opts url patch mode =
      if canonSP opts.sortKeys (applyPatchSP cfg opts url.search patch).1 =
          canonSP opts.sortKeys url.search
      then ⟨url, none, (applyPatchSP cfg opts url.search patch).2⟩
      else
        ⟨⟨url.pathname, canonSP opts.sortKeys (applyPatchSP cfg opts url.search patch).1,
            url.hash⟩,
         some (⟨url.pathname,
                canonSP opts.sortKeys (applyPatchSP cfg opts url.search patch).1,
                url.hash⟩,
               mode.getD opts.defaultHistory),
         (applyPatchSP cfg opts url.search patch).2⟩ := rfl

/-- C5: no-op suppression holds unconditionally — a patch whose encoded,
canonicalized result equals the current canonicalized query string commits no
navigation, whatever the declaration, options and patch; and applying the same
patch twice (its keys distinct, as JavaScript object keys are) is idempotent
provided the patch contains no `string[]` key or `sortKeys` is enabled: the
second call commits nothing and leaves the address unchanged. (With a
`string[]` key and `sortKeys` off, the delete-then-re-append can reorder
entries and the second call commits again — see the counterexample.) -/
theorem C5_noop_suppression_and_idempotence (cfg : Config) (opts : Options) (url : Url)
    (patch : List (String × Option JSValue)) (mode : Option HistoryMode) :
    (canonSP opts.sortKeys (applyPatchSP cfg opts url.search patch).1 =
        canonSP opts.sortKeys url.search →
      (syncParams cfg opts url patch mode).committed = none) ∧
    ((patch.map (fun e => e.1)).Nodup →
      ((∀ e ∈ patch, List.lookup e.1 cfg ≠ some .stringArray) ∨ opts.sortKeys = true) →
      (syncParams cfg opts (syncParams cfg opts url patch mode).url patch mode).committed
          = none ∧
      (syncParams cfg opts (syncParams cfg opts url patch mode).url patch mode).url =
        (syncParams cfg opts url patch mode).url) := by
  have hfst : ∀ sp2 : SP,
      (applyPatchSP cfg opts sp2 patch).1 = applyOps cfg opts sp2 patch :=
    fun sp2 => applyPatchSP_fst cfg opts patch sp2 []
  have hnoop : ∀ u : Url,
      canonSP opts.sortKeys (applyPatchSP cfg opts u.search patch).1 =
        canonSP opts.sortKeys u.search →
      (syncParams cfg opts u patch mode).committed = none ∧
      (syncParams cfg opts u patch mode).url = u := by
    intro u hc
    rw [syncParams_eq cfg opts u patch mode, if_pos hc]
    exact ⟨rfl, rfl⟩
  refine ⟨fun hc => (hnoop url hc).1, ?_⟩
  intro hnodup hcase
  by_cases hc : canonSP opts.sortKeys (applyPatchSP cfg opts url.search patch).1 =
      canonSP opts.sortKeys url.search
  · have h1 := hnoop url hc
    refine ⟨?_, ?_⟩ <;> rw [h1.2]
    · exact h1.1
    · exact h1.2
  · set u2 : Url :=
      ⟨url.pathname, canonSP opts.sortKeys (applyPatchSP cfg opts url.search patch).1,
       url.hash⟩ with hu2
    have hr1url : (syncParams cfg opts url patch mode).url = u2 := by
      rw [syncParams_eq cfg opts url patch mode, if_neg hc]
    have heff : ∀ e ∈ patch,
        (∀ v, (entryOp cfg opts e.1 e.2).1 = .set v →
            SP.filterKey u2.search e.1 = [(e.1, v)]) ∧
        ((entryOp cfg opts e.1 e.2).1 = .del → SP.filterKey u2.search e.1 = []) ∧
        (∀ vs, (entryOp cfg opts e.1 e.2).1 = .setList vs →
            SP.filterKey u2.search e.1 = vs.map (fun v => (e.1, v))) := by
      intro e he
      have hfin := applyOps_final cfg opts patch url.search hnodup e he
      have hfk : SP.filterKey u2.search e.1 =
          SP.filterKey (applyOps cfg opts url.search patch) e.1 := by
        show SP.filterKey
            (canonSP opts.sortKeys (applyPatchSP cfg opts url.search patch).1) e.1 = _
        rw [canonSP_filterKey, hfst]
      refine ⟨?_, ?_, ?_⟩
      · intro v hop
        rw [hfk]
        exact hfin.1 v hop
      · intro hop
        rw [hfk]
        exact hfin.2 hop
      · intro vs hop
        rw [hfk]
        exact applyOps_final_setList cfg opts patch url.search hnodup e he vs hop
    have hc2 : canonSP opts.sortKeys (applyPatchSP cfg opts u2.search patch).1 =
        canonSP opts.sortKeys u2.search := by
      rcases hcase with hnl | hsort
      · have hid : applyOps cfg opts u2.search patch = u2.search := by
          apply applyOps_id
          intro e he
          have hsd := entryOp_set_or_del cfg opts e.1 e.2 (hnl e he)
          refine ⟨?_, (heff e he).1, (heff e he).2.1⟩
          intro vs hvs
          rcases hsd with hd | ⟨v, hv⟩
          · rw [hvs] at hd
            exact POp.noConfusion hd
          · rw [hvs] at hv
            exact POp.noConfusion hv
        rw [hfst u2.search, hid]
      · have hct : ∀ z : SP, canonSP true z = sortSP z := fun z => rfl
        rw [hfst u2.search, hsort, hct, hct]
        exact sortSP_eq_of_filterKey _ _
          (applyOps_filterKey_eq cfg opts patch hnodup u2.search heff)
    have h2 := hnoop u2 hc2
    rw [hr1url]
    exact ⟨h2.1, h2.2⟩

/-- Declaration with a `string[]` key `a` and a `string` key `b`. -/
def listStringConfig : Config := [("a", .stringArray), ("b", .single .string)]

/-- An address at path `/p` with an empty query. -/
def slashPUrl : Url := ⟨"/p", [], ""⟩

/-- The patch `{a: ['v'], b: 'w'}`. -/
def listPatch : List (String × Option JSValue) :=
  [("a", some (.arr ["v"])), ("b", some (.str "w"))]

/-- Options left at their defaults (`sortKeys: false`, replace mode). -/
def defaultOptions : Options := {}

/-- Options with key sorting enabled. -/
def sortedOptions : Options := { sortKeys := true }

/-- An address at path `/p` whose query already carries `k=w`. -/
def kwUrl : Url := ⟨"/p", [("k", "w")], ""⟩

/-- C5 counterexample: applying `{a: ['v'], b: 'w'}` to an empty query
commits `a=v&b=w`; applying the *same* patch again deletes and re-appends the
`a` entries behind `b`, producing the different string `b=w&a=v` — so the
second application commits a second navigation instead of being a no-op. -/
theorem C5_counterexample_list_reorder :
    (syncParams listStringConfig defaultOptions slashPUrl listPatch none).url =
      ⟨"/p", [("a", "v"), ("b", "w")], ""⟩ ∧
    (syncParams listStringConfig defaultOptions
        (syncParams listStringConfig defaultOptions slashPUrl listPatch none).url
        listPatch none).committed =
      some (⟨"/p", [("b", "w"), ("a", "v")], ""⟩, .replace) :=
  ⟨rfl, rfl⟩

/-- C5 witness: suppression fires at an address already carrying the patched
value; idempotence holds for a `string`-key patch, and — with sorting
enabled — even for the `string[]`-key patch of the counterexample's shape. -/
theorem C5_noop_suppression_and_idempotence_witness :
    (canonSP defaultOptions.sortKeys
        (applyPatchSP stringKeyConfig defaultOptions kwUrl.search
          [("k", some (JSValue.str "w"))]).1 =
      canonSP defaultOptions.sortKeys kwUrl.search) ∧
    (syncParams stringKeyConfig defaultOptions kwUrl
        [("k", some (.str "w"))] none).committed = none ∧
    ((([("k", some (JSValue.str "w"))] : List (String × Option JSValue)).map
        (fun e => e.1)).Nodup) ∧
    (∀ e ∈ ([("k", some (JSValue.str "w"))] : List (String × Option JSValue)),
        List.lookup e.1 stringKeyConfig ≠ some .stringArray) ∧
    (syncParams stringKeyConfig defaultOptions
        (syncParams stringKeyConfig defaultOptions slashPUrl
          [("k", some (.str "w"))] none).url
        [("k", some (.str "w"))] none).committed = none ∧
    ((listPatch.map (fun e => e.1)).Nodup ∧ sortedOptions.sortKeys = true) ∧
    (syncParams listStringConfig sortedOptions
        (syncParams listStringConfig sortedOptions slashPUrl listPatch none).url
        listPatch none).committed = none :=
  ⟨rfl,
   (C5_noop_suppression_and_idempotence stringKeyConfig defaultOptions kwUrl
      [("k", some (.str "w"))] none).1 rfl,
   by decide, by decide,
   ((C5_noop_suppression_and_idempotence stringKeyConfig defaultOptions slashPUrl
      [("k", some (.str "w"))] none).2 (by decide) (Or.inl (by decide))).1,
   ⟨by decide, rfl⟩,
   ((C5_noop_suppression_and_idempotence listStringConfig sortedOptions slashPUrl
      listPatch none).2 (by decide) (Or.inr rfl)).1⟩

theorem parseSingleR_mono (raw : Option String) (t : SingleType)
    (cp : Option (String → Option RValue)) (i : Nat) :
    i ≤ (parseSingleR raw t cp i).2 := by
  rcases raw with _ | v
  · exact le_refl i
  · rcases cp with _ | p
    · cases t with
      | string => exact le_refl i
      | number => exact le_refl i
      | boolean => exact le_refl i
      | date =>
          simp only [parseSingleR]
          rcases jsDateParse v with _ | ts
          · exact le_refl i
          · exact Nat.le_succ i
    · cases t <;> exact le_refl i

theorem tagReadR_mono (opts : ROptions) (sp : SP) (k : String) (tag : QueryParamType)
    (i : Nat) : i ≤ (tagReadR opts sp k tag i).2 := by
  cases tag with
  | stringArray =>
      simp only [tagReadR]
      by_cases hv : SP.getAll sp k ≠ []
      · rw [if_pos hv]
        exact Nat.le_succ i
      · rw [if_neg hv]
        rcases List.lookup k opts.defaultValues with _ | dv
        · exact Nat.le_succ_of_le (Nat.le_succ i)
        · show i ≤ (if rvTruthy dv = true then (some dv, i + 1)
              else (some (RValue.arrRef (i + 1) []), i + 2)).2
          split
          · exact Nat.le_succ i
          · exact Nat.le_succ_of_le (Nat.le_succ i)
  | object =>
      simp only [tagReadR]
      rcases parseObject (SP.get sp k) with _ | j
      · exact le_refl i
      · cases j <;> simp
  | single t =>
      simp only [tagReadR]
      exact parseSingleR_mono (SP.get sp k) t (List.lookup k opts.customParse) i

theorem readKeyR_mono (opts : ROptions) (sp : SP) (k : String) (tag : QueryParamType)
    (i : Nat) : i ≤ (readKeyR opts sp k tag i).2 :=
  tagReadR_mono opts sp k tag i

theorem getParamsR_mono (cfg : Config) (opts : ROptions) (sp : SP) :
    ∀ i, i ≤ (getParamsR cfg opts sp i).2 := by
  induction cfg with
  | nil => intro i; exact le_refl i
  | cons e rest ih =>
      intro i
      obtain ⟨k, tag⟩ := e
      show i ≤ (getParamsR rest opts sp ((readKeyR opts sp k tag i).2)).2
      exact le_trans (readKeyR_mono opts sp k tag i) (ih _)

theorem getParamsR_keys (opts : ROptions) (sp : SP) :
    ∀ (cfg : Config) (i : Nat),
      (getParamsR cfg opts sp i).1.map (fun e => e.1) = cfg.map (fun e => e.1) := by
  intro cfg
  induction cfg with
  | nil => intro i; rfl
  | cons e rest ih =>
      intro i
      obtain ⟨k, tag⟩ := e
      show (((k, (readKeyR opts sp k tag i).1) ::
          (getParamsR rest opts sp ((readKeyR opts sp k tag i).2)).1).map (fun e => e.1)) =
        (((k, tag) :: rest).map (fun e => e.1))
      rw [List.map_cons, List.map_cons]
      exact congrArg (k :: ·) (ih _)

theorem getParamsR_lookup (opts : ROptions) (sp : SP) :
    ∀ (cfg : Config) (i : Nat) (k : String) (tag : QueryParamType),
      (cfg.map (fun e => e.1)).Nodup → (k, tag) ∈ cfg →
      ∃ j, i ≤ j ∧
        List.lookup k (getParamsR cfg opts sp i).1 = some ((readKeyR opts sp k tag j).1) ∧
        (readKeyR opts sp k tag j).2 ≤ (getParamsR cfg opts sp i).2 := by
  intro cfg
  induction cfg with
  | nil => intro i k tag _ hmem; cases hmem
  | cons e rest ih =>
      intro i k tag hnodup hmem
      obtain ⟨k0, tag0⟩ := e
      rw [List.map_cons] at hnodup
      have hnm := (List.nodup_cons.mp hnodup).1
      have hnd := (List.nodup_cons.mp hnodup).2
      rcases List.mem_cons.mp hmem with heq | hmem2
      · injection heq with hk htag
        subst hk
        subst htag
        refine ⟨i, le_refl i, ?_, ?_⟩
        · show List.lookup k ((k, (readKeyR opts sp k tag i).1) ::
              (getParamsR rest opts sp ((readKeyR opts sp k tag i).2)).1) = _
          rw [List.lookup]
          rw [show (k == k) = true from beq_self_eq_true k]
        · show (readKeyR opts sp k tag i).2 ≤
              (getParamsR rest opts sp ((readKeyR opts sp k tag i).2)).2
          exact getParamsR_mono rest opts sp _
      · have hkne : k ≠ k0 := by
          intro hh
          apply hnm
          rw [← hh]
          exact List.mem_map_of_mem (fun e2 => e2.1) hmem2
        obtain ⟨j, hj1, hj2, hj3⟩ := ih ((readKeyR opts sp k0 tag0 i).2) k tag hnd hmem2
        refine ⟨j, le_trans (readKeyR_mono opts sp k0 tag0 i) hj1, ?_, ?_⟩
        · show List.lookup k ((k0, (readKeyR opts sp k0 tag0 i).1) ::
              (getParamsR rest opts sp ((readKeyR opts sp k0 tag0 i).2)).1) = _
          rw [List.lookup]
          rw [show (k == k0) = false from beq_eq_false_iff_ne.mpr hkne]
          exact hj2
        · exact hj3

/-- The situations in which one read constructs a fresh heap value for a key:
a non-empty `string[]` occurrence list, an `object` value decoding to a JSON
structure (object or array), or a `date` value decoding to a valid date. -/
def allocCase (sp : SP) (k : String) : QueryParamType → Prop
  | .stringArray => SP.getAll sp k ≠ []
  | .object => (∃ l, parseObject (SP.get sp k) = some (.jobj l)) ∨
      (∃ a, parseObject (SP.get sp k) = some (.jarr a))
  | .single t => t = .date ∧ ∃ raw ts, SP.get sp k = some raw ∧ jsDateParse raw = some ts

theorem readKeyR_alloc (opts : ROptions) (sp : SP) (k : String) (tag : QueryParamType)
    (i : Nat) (hval : List.lookup k opts.validation = none)
    (hcp : List.lookup k opts.customParse = none)
    (halloc : allocCase sp k tag) :
    ∃ rv id, (readKeyR opts sp k tag i).1 = some rv ∧ rv.refId = some id ∧
      i ≤ id ∧ id < (readKeyR opts sp k tag i).2 := by
  have hv : ∀ v : Option RValue, validateR opts k v = v := by
    intro v
    unfold validateR
    rw [hval]
  cases tag with
  | stringArray =>
      have hne : SP.getAll sp k ≠ [] := halloc
      have ht : tagReadR opts sp k .stringArray i =
          (some (.arrRef i (SP.getAll sp k)), i + 1) := by
        simp only [tagReadR]
        rw [if_pos hne]
      refine ⟨.arrRef i (SP.getAll sp k), i, ?_, rfl, le_refl i, ?_⟩
      · show validateR opts k (tagReadR opts sp k .stringArray i).1 = _
        rw [ht, hv]
      · show i < (tagReadR opts sp k .stringArray i).2
        rw [ht]
        exact Nat.lt_succ_self i
  | object =>
      rcases halloc with ⟨l, h1⟩ | ⟨a, h1⟩
      · have ht : tagReadR opts sp k .object i = (some (.objRef i (.jobj l)), i + 1) := by
          simp only [tagReadR, h1]
        refine ⟨.objRef i (.jobj l), i, ?_, rfl, le_refl i, ?_⟩
        · show validateR opts k (tagReadR opts sp k .object i).1 = _
          rw [ht, hv]
        · show i < (tagReadR opts sp k .object i).2
          rw [ht]
          exact Nat.lt_succ_self i
      · have ht : tagReadR opts sp k .object i = (some (.objRef i (.jarr a)), i + 1) := by
          simp only [tagReadR, h1]
        refine ⟨.objRef i (.jarr a), i, ?_, rfl, le_refl i, ?_⟩
        · show validateR opts k (tagReadR opts sp k .object i).1 = _
          rw [ht, hv]
        · show i < (tagReadR opts sp k .object i).2
          rw [ht]
          exact Nat.lt_succ_self i
  | single t =>
      obtain ⟨rfl, raw, ts, hraw, hts⟩ := halloc
      have hps : parseSingleR (SP.get sp k) .date (List.lookup k opts.customParse) i =
          (some (.dateRef i ts), i + 1) := by
        rw [hraw, hcp]
        simp only [parseSingleR, hts]
      have ht : tagReadR opts sp k (.single .date) i = (some (.dateRef i ts), i + 1) := by
        simp only [tagReadR, hps]
        rfl
      refine ⟨.dateRef i ts, i, ?_, rfl, le_refl i, ?_⟩
      · show validateR opts k (tagReadR opts sp k (.single .date) i).1 = _
        rw [ht, hv]
      · show i < (tagReadR opts sp k (.single .date) i).2
        rw [ht]
        exact Nat.lt_succ_self i

theorem jsEqR_refs_ne (a b : RValue) (ia ib : Nat) (ha : a.refId = some ia)
    (hb : b.refId = some ib) (hne : ia ≠ ib) : jsEqR a b = false := by
  cases a <;> cases b <;> simp_all [RValue.refId, jsEqR]

/-- C9 (amended): the shallow comparison gating publication uses reference
identity per key, and every read allocates fresh `Date`/array/object values —
so for any configuration with a key whose raw value decodes to a freshly
allocated structure (a valid `date`, an `object` decoding to a JSON object or
array, or a non-empty `string[]` occurrence list; no custom parser and no
validator interposed for that key), two snapshot computations over the same
unchanged query string are judged different, and the `setParams` updater
takes the republish (merge) branch.  (A primitive value under an `object`
tag, by contrast, compares equal — see the counterexample, which refutes the
claim as stated for "present" values that decode to primitives.) -/
theorem C9_fresh_refs_break_shallow_equality (cfg : Config) (opts : ROptions) (sp : SP)
    (i1 : Nat) (k : String) (tag : QueryParamType)
    (hnodup : (cfg.map (fun e => e.1)).Nodup)
    (hmem : (k, tag) ∈ cfg)
    (hval : List.lookup k opts.validation = none)
    (hcp : List.lookup k opts.customParse = none)
    (halloc : allocCase sp k tag) :
    shallowEqualR (snapshotRead cfg opts sp i1).1
        (snapshotRead cfg opts sp (snapshotRead cfg opts sp i1).2).1 = false ∧
    setParamsUpdate (snapshotRead cfg opts sp i1).1
        (snapshotRead cfg opts sp (snapshotRead cfg opts sp i1).2).1
        (snapshotRead cfg opts sp (snapshotRead cfg opts sp i1).2).2 =
      ((snapshotRead cfg opts sp (snapshotRead cfg opts sp i1).2).2,
       mergeEntries (snapshotRead cfg opts sp i1).1.2
         (snapshotRead cfg opts sp (snapshotRead cfg opts sp i1).2).1.2) := by
  have hmono1 : i1 + 1 ≤ (getParamsR cfg opts sp (i1 + 1)).2 :=
    getParamsR_mono cfg opts sp (i1 + 1)
  obtain ⟨j1, hj1a, hj1b, hj1c⟩ :=
    getParamsR_lookup opts sp cfg (i1 + 1) k tag hnodup hmem
  obtain ⟨rv1, id1, hv1, hid1, hlo1, hhi1⟩ :=
    readKeyR_alloc opts sp k tag j1 hval hcp halloc
  obtain ⟨j2, hj2a, hj2b, hj2c⟩ :=
    getParamsR_lookup opts sp cfg ((getParamsR cfg opts sp (i1 + 1)).2 + 1) k tag hnodup hmem
  obtain ⟨rv2, id2, hv2, hid2, hlo2, hhi2⟩ :=
    readKeyR_alloc opts sp k tag j2 hval hcp halloc
  rw [hv1] at hj1b
  rw [hv2] at hj2b
  have hid_lt : id1 < id2 := by omega
  have hjs : jsEqR rv1 rv2 = false :=
    jsEqR_refs_ne rv1 rv2 id1 id2 hid1 hid2 (Nat.ne_of_lt hid_lt)
  have hne_id : ¬ (i1 = (getParamsR cfg opts sp (i1 + 1)).2) := by omega
  have hent : entryLookup k
      (getParamsR cfg opts sp ((getParamsR cfg opts sp (i1 + 1)).2 + 1)).1 = some rv2 := by
    unfold entryLookup
    rw [hj2b]
  have hmem1 : (k, some rv1) ∈ (getParamsR cfg opts sp (i1 + 1)).1 :=
    lookup_mem k (some rv1) _ hj1b
  have hsh : shallowEqualR (i1, (getParamsR cfg opts sp (i1 + 1)).1)
      ((getParamsR cfg opts sp (i1 + 1)).2,
       (getParamsR cfg opts sp ((getParamsR cfg opts sp (i1 + 1)).2 + 1)).1) = false := by
    show (if i1 = (getParamsR cfg opts sp (i1 + 1)).2 then true
          else if ((getParamsR cfg opts sp (i1 + 1)).1.map (fun e => e.1)).length ≠
              ((getParamsR cfg opts sp ((getParamsR cfg opts sp (i1 + 1)).2 + 1)).1.map
                (fun e => e.1)).length then false
          else (getParamsR cfg opts sp (i1 + 1)).1.all
              (fun e => jsEqOptR e.2
                (entryLookup e.1
                  (getParamsR cfg opts sp
                    ((getParamsR cfg opts sp (i1 + 1)).2 + 1)).1))) = false
    rw [if_neg hne_id,
        if_neg (by
          rw [getParamsR_keys opts sp cfg (i1 + 1),
              getParamsR_keys opts sp cfg ((getParamsR cfg opts sp (i1 + 1)).2 + 1)]
          exact fun hh => hh rfl)]
    rcases hall : (getParamsR cfg opts sp (i1 + 1)).1.all
        (fun e => jsEqOptR e.2
          (entryLookup e.1
            (getParamsR cfg opts sp ((getParamsR cfg opts sp (i1 + 1)).2 + 1)).1)) with _ | _
    · rfl
    · exfalso
      have hal := List.all_eq_true.mp hall (k, some rv1) hmem1
      have h2 : jsEqOptR (some rv1)
          (entryLookup k
            (getParamsR cfg opts sp ((getParamsR cfg opts sp (i1 + 1)).2 + 1)).1) = true := hal
      rw [hent] at h2
      have h3 : jsEqR rv1 rv2 = true := h2
      rw [hjs] at h3
      exact Bool.noConfusion h3
  constructor
  · exact hsh
  · show setParamsUpdate (i1, (getParamsR cfg opts sp (i1 + 1)).1)
        ((getParamsR cfg opts sp (i1 + 1)).2,
         (getParamsR cfg opts sp ((getParamsR cfg opts sp (i1 + 1)).2 + 1)).1)
        ((getParamsR cfg opts sp ((getParamsR cfg opts sp (i1 + 1)).2 + 1)).2) =
      ((getParamsR cfg opts sp ((getParamsR cfg opts sp (i1 + 1)).2 + 1)).2,
       mergeEntries (getParamsR cfg opts sp (i1 + 1)).1
         (getParamsR cfg opts sp ((getParamsR cfg opts sp (i1 + 1)).2 + 1)).1)
    unfold setParamsUpdate
    rw [hsh]
    rfl

/-- The empty instrumented options. -/
def emptyROptions : ROptions := {}

/-- Declaration with a single `date` key `d`. -/
def dateKeyConfig : Config := [("d", .single .date)]

/-- C9 counterexample: an `object` key whose raw value `1` decodes to the
primitive number `1` (not a fresh structure): two snapshot computations over
the unchanged query string are judged shallowly EQUAL, and the `setParams`
updater keeps the previous snapshot — no republish, contradicting the claim
as stated for this present `object` value. -/
theorem C9_counterexample_primitive_object :
    shallowEqualR (snapshotRead objectKeyConfig emptyROptions [("f", "1")] 0).1
        (snapshotRead objectKeyConfig emptyROptions [("f", "1")]
          (snapshotRead objectKeyConfig emptyROptions [("f", "1")] 0).2).1 = true ∧
    setParamsUpdate (snapshotRead objectKeyConfig emptyROptions [("f", "1")] 0).1
        (snapshotRead objectKeyConfig emptyROptions [("f", "1")]
          (snapshotRead objectKeyConfig emptyROptions [("f", "1")] 0).2).1
        (snapshotRead objectKeyConfig emptyROptions [("f", "1")]
          (snapshotRead objectKeyConfig emptyROptions [("f", "1")] 0).2).2 =
      (snapshotRead objectKeyConfig emptyROptions [("f", "1")] 0).1 :=
  ⟨rfl, rfl⟩

/-- C9 witness: the amended theorem at a `date` key with the valid raw value
`5Z` (the modelled ISO rendering of epoch-millisecond 5). -/
theorem C9_fresh_refs_break_shallow_equality_witness :
    ((dateKeyConfig.map (fun e => e.1)).Nodup) ∧
    ("d", QueryParamType.single .date) ∈ dateKeyConfig ∧
    List.lookup "d" emptyROptions.validation = none ∧
    List.lookup "d" emptyROptions.customParse = none ∧
    allocCase [("d", "5Z")] "d" (.single .date) ∧
    shallowEqualR (snapshotRead dateKeyConfig emptyROptions [("d", "5Z")] 0).1
        (snapshotRead dateKeyConfig emptyROptions [("d", "5Z")]
          (snapshotRead dateKeyConfig emptyROptions [("d", "5Z")] 0).2).1 = false :=
  ⟨by decide, List.mem_cons_self _ _, rfl, rfl, ⟨rfl, "5Z", 5, rfl, rfl⟩,
   (C9_fresh_refs_break_shallow_equality dateKeyConfig emptyROptions [("d", "5Z")] 0 "d"
     (.single .date) (by decide) (List.mem_cons_self _ _) rfl rfl
     ⟨rfl, "5Z", 5, rfl, rfl⟩).1⟩
